import Mathlib

/-!
Shallow embedding of the fanart_viewer preview-resolution engine.

The embedding covers, translated from the repository sources:
 - `backend/item/views.py`: `_fetch_image_via_requests`, the candidate-collection
   phase of `ItemViewSet.fetch_and_save_preview`, the persist ("save") phase,
   `ItemViewSet.preview`, and the DELETE branch of `ItemViewSet.preview_index`;
 - `backend/item/utils.py`: `fetch_twitter_media_urls`,
   `fetch_twitter_media_urls_with_sources` and the three backends;
 - `backend/item/playwright_helper.py`: `make_pixiv_original_candidate`,
   `_is_pixiv_host`, the `_p<N>` multi-page expansion loop and the control flow
   of `fetch_images_with_playwright`.

Strings are modelled as `List Char` (`String.data`), byte payloads as
`List Nat`.  Network and browser I/O is modelled as environment records: an
environment field holds the outcome of a given external request, and the
embedded control flow consumes it exactly as the Python code consumes the
response objects.  Each external request performed is recorded in a trace.
-/

/-! ## Generic list/string machinery (substring search, replace, regex pieces) -/

/-- Substring test: `pat` occurs somewhere in `l` (Python `pat in s`). -/
def containsSub (pat : List Char) : List Char → Bool
  | [] => pat.isEmpty
  | c :: cs => pat.isPrefixOf (c :: cs) || containsSub pat cs

/-- Longest run of decimal digits at the front of `l`, with the remainder
(used to model the regex `\d+`). -/
def takeDigits : List Char → List Char × List Char
  | [] => ([], [])
  | c :: cs =>
    if c.isDigit then
      let p := takeDigits cs
      (c :: p.1, p.2)
    else ([], c :: cs)

/-- Python `str.replace(pat, rep)` (all occurrences, left to right, scanning
resumes after each replacement), with fuel; `replaceAll` supplies fuel. -/
def replaceAllAux (pat rep : List Char) : Nat → List Char → List Char
  | _, [] => []
  | 0, l => l
  | fuel + 1, c :: cs =>
    if pat ≠ [] && pat.isPrefixOf (c :: cs) then
      rep ++ replaceAllAux pat rep fuel (List.drop pat.length (c :: cs))
    else c :: replaceAllAux pat rep fuel cs

/-- Python `str.replace(pat, rep)`. -/
def replaceAll (pat rep l : List Char) : List Char :=
  replaceAllAux pat rep l.length l

/-- Python `str.replace(pat, rep, 1)`: replace only the leftmost occurrence. -/
def replaceFirst (pat rep : List Char) : List Char → List Char
  | [] => []
  | c :: cs =>
    if pat ≠ [] && pat.isPrefixOf (c :: cs) then
      rep ++ List.drop pat.length (c :: cs)
    else c :: replaceFirst pat rep cs

/-- Split `l` at the first occurrence of `sep`, returning the parts before and
after it; `none` when `sep` does not occur. -/
def splitFirst (sep : List Char) : List Char → Option (List Char × List Char)
  | [] => if sep.isEmpty then some ([], []) else none
  | c :: cs =>
    if sep.isPrefixOf (c :: cs) then some ([], List.drop sep.length (c :: cs))
    else (splitFirst sep cs).map (fun p => (c :: p.1, p.2))

/-! ## URL parsing (model of `urllib.parse.urlparse` for the shapes used here)

`urlparse` on `scheme://netloc/path?query#fragment` yields the four parts; on a
string without `://` the scheme and netloc are empty and the whole string is
the path.  `make_pixiv_original_candidate` reads `scheme`, `netloc`, `path` and
rebuilds `f"{scheme}://{netloc}{path}"`, dropping query and fragment. -/

structure ParsedUrl where
  scheme : List Char
  netloc : List Char
  path : List Char
  rest : List Char
deriving DecidableEq, Repr

/-- Character that ends the netloc component. -/
def isNetlocEnd (c : Char) : Bool := c = '/' || c = '?' || c = '#'

/-- Character that ends the path component (starts query or fragment). -/
def isPathEnd (c : Char) : Bool := c = '?' || c = '#'

/-- Model of `urllib.parse.urlparse` restricted to the fields the code reads. -/
def parseUrl (u : List Char) : ParsedUrl :=
  match splitFirst "://".data u with
  | none => ⟨[], [], u, []⟩
  | some p =>
    let nl := p.2.takeWhile (fun c => !isNetlocEnd c)
    let after := p.2.dropWhile (fun c => !isNetlocEnd c)
    ⟨p.1, nl, after.takeWhile (fun c => !isPathEnd c),
      after.dropWhile (fun c => !isPathEnd c)⟩

/-! ## Image fetcher: `_fetch_image_via_requests` (`backend/item/views.py`) -/

/-- Outcome of the single `requests.get` the fetcher performs: `none` models a
raised transport exception, `some` carries status code, the `content-type`
header value (empty list when the header is missing) and the payload bytes. -/
structure HttpResponse where
  statusCode : Nat
  contentType : List Char
  content : List Nat
deriving DecidableEq, Repr

/-- Python `ct.split(';', 1)[0]`. -/
def splitSemi1 (ct : List Char) : List Char := ct.takeWhile (fun c => c ≠ ';')

/-- Model of `_fetch_image_via_requests(url, min_size)`.  The response to the
single GET is passed in; the function validates status, image content type,
excludes SVG, and optionally enforces the minimum payload size.  `none` is the
`(None, None)` failure tuple. -/
def fetch_image_via_requests (resp : Option HttpResponse) (min_size : Option Nat) :
    Option (List Nat × List Char) :=
  match resp with
  | none => none
  | some r =>
    if r.statusCode = 200 && !r.contentType.isEmpty
        && ("image".data).isPrefixOf (splitSemi1 r.contentType) then
      let mime := (splitSemi1 r.contentType).map Char.toLower
      if mime = "image/svg+xml".data then none
      else
        match min_size with
        | some n => if r.content.length < n then none else some (r.content, mime)
        | none => some (r.content, mime)
    else none

/-! ## Twitter media aggregation (`backend/item/utils.py`)

The three backends perform network I/O and HTML/JSON extraction; the extraction
itself is outside the claims, so each backend's environment field holds the
candidate URLs it would extract, while the control flow around credentials,
failures, `None` returns and try-order is translated from the source. -/

/-- Tag for an external request recorded in the trace. -/
inductive NetCall where
  /-- a `requests.get` of the given URL -/
  | get (url : List Char)
  /-- the credentialed Twitter v2 API request made by `_fetch_via_api` -/
  | api
  /-- a browser/renderer session (`fetch_rendered_media` / Playwright) -/
  | render
deriving DecidableEq, Repr

/-- Environment for the twitter helper backends. -/
structure TwEnv where
  /-- value of `TW_FETCH_METHOD` (already lowercased, default `"api"`) -/
  method : List Char
  /-- whether `TW_BEARER` is configured -/
  bearer : Bool
  /-- whether the API request itself fails (raise → caught → `[]`) -/
  apiFails : Bool
  /-- photo URLs extracted from the API JSON on success -/
  apiUrls : List (List Char)
  /-- status code of the stored last API response, if any (`get_last_api_response`) -/
  lastApiStatus : Option Nat
  /-- whether the scrape GET of the tweet page fails (raise → caught → `[]`) -/
  scrapeFails : Bool
  /-- URLs extracted from the tweet HTML on success -/
  scrapeUrls : List (List Char)
  /-- whether the nitter GET fails (raise → caught → `None`) -/
  nitterFails : Bool
  /-- URLs extracted from the nitter HTML on success -/
  nitterUrls : List (List Char)
deriving Repr

/-- Model of `_fetch_via_api`: returns `[]` with no network call when
`TW_BEARER` is missing; otherwise one API request, `[]` on failure. -/
def fetch_via_api (env : TwEnv) : List (List Char) × List NetCall :=
  if !env.bearer then ([], [])
  else if env.apiFails then ([], [NetCall.api])
  else (env.apiUrls, [NetCall.api])

/-- Model of `_fetch_via_scrape`: one GET of the tweet page; `[]` on failure,
otherwise the URLs extracted from the HTML. -/
def fetch_via_scrape (env : TwEnv) (tweet_url : List Char) :
    List (List Char) × List NetCall :=
  if env.scrapeFails then ([], [NetCall.get tweet_url])
  else (env.scrapeUrls, [NetCall.get tweet_url])

/-- Model of `_fetch_via_nitter`: returns `None` (not `[]`) both when the URL
has fewer than 5 `/`-separated parts (before any network call) and when the
GET fails; otherwise the URLs extracted from the nitter page. -/
def fetch_via_nitter (env : TwEnv) (tweet_url : List Char) :
    Option (List (List Char)) × List NetCall :=
  if (tweet_url.splitOn '/').length < 5 then (none, [])
  else if env.nitterFails then (none, [NetCall.get tweet_url])
  else (some env.nitterUrls, [NetCall.get tweet_url])

/-- One backend name in the try order. -/
inductive TwBackend where
  | api
  | scrape
  | nitter
  /-- an unrecognized `TW_FETCH_METHOD` value, for which the loop body sets
  `urls = []` -/
  | other (name : List Char)
deriving DecidableEq, Repr

/-- Try order built from `TW_FETCH_METHOD` in `fetch_twitter_media_urls`. -/
def twTryOrder (method : List Char) : List TwBackend :=
  if method = "api".data then [TwBackend.api, TwBackend.scrape, TwBackend.nitter]
  else if method = "scrape".data then [TwBackend.scrape, TwBackend.api, TwBackend.nitter]
  else if method = "nitter".data then [TwBackend.nitter, TwBackend.scrape, TwBackend.api]
  else [TwBackend.other method, TwBackend.api, TwBackend.scrape, TwBackend.nitter]

/-- Run one backend; the orchestrator's `except: urls = []` is reflected in the
backends themselves (every raise is caught inside them already), and nitter's
`None` is kept as `none`. -/
def runTwBackend (env : TwEnv) (tweet_url : List Char) :
    TwBackend → Option (List (List Char)) × List NetCall
  | TwBackend.api => let r := fetch_via_api env; (some r.1, r.2)
  | TwBackend.scrape => let r := fetch_via_scrape env tweet_url; (some r.1, r.2)
  | TwBackend.nitter => fetch_via_nitter env tweet_url
  | TwBackend.other _ => (some [], [])

/-- Inner accumulation of `fetch_twitter_media_urls`:
`for u in urls: if u and u not in collected: collected.append(u)`. -/
def twCollect (collected : List (List Char)) (urls : List (List Char)) :
    List (List Char) :=
  urls.foldl (fun col v => if v ≠ [] && !col.contains v then col ++ [v] else col)
    collected

/-- Model of `fetch_twitter_media_urls`: iterate the try order, treat a `None`
or empty result as "nothing" (`if not urls: continue`), and aggregate unique
URLs preserving first-discovery order. -/
def fetch_twitter_media_urls (env : TwEnv) (tweet_url : List Char) :
    List (List Char) :=
  (twTryOrder env.method).foldl
    (fun collected b => twCollect collected ((runTwBackend env tweet_url b).1.getD []))
    []

/-- Network calls performed by `fetch_twitter_media_urls` (and equally by
`fetch_twitter_media_urls_with_sources`, which runs the same backends). -/
def twHelperTrace (env : TwEnv) (tweet_url : List Char) : List NetCall :=
  (twTryOrder env.method).foldl
    (fun tr b => tr ++ (runTwBackend env tweet_url b).2) []

/-- Model of `fetch_twitter_media_urls_with_sources`: same try order, but each
collected URL is paired with the backend that produced it, deduplicated by URL
via the `seen` set. -/
def fetch_twitter_media_urls_with_sources (env : TwEnv) (tweet_url : List Char) :
    List (List Char × TwBackend) :=
  ((twTryOrder env.method).foldl
    (fun acc b =>
      ((runTwBackend env tweet_url b).1.getD []).foldl
        (fun a v =>
          if v ≠ [] && !a.2.contains v then (a.1 ++ [(v, b)], a.2 ++ [v]) else a)
        acc)
    ([], [])).1

/-- Specification-side deduplication: keep the first occurrence of each
element (used to state the refinement theorem for C10). -/
def dedupKeepFirst (l : List (List Char)) : List (List Char) :=
  l.foldl (fun col v => if !col.contains v then col ++ [v] else col) []

/-- Concatenated backend outputs in try order with empty strings dropped: the
"first discovery" stream the aggregator deduplicates. -/
def twDiscoveryStream (env : TwEnv) (tweet_url : List Char) : List (List Char) :=
  (((twTryOrder env.method).map
    (fun b => (runTwBackend env tweet_url b).1.getD [])).flatten).filter
    (fun v => v ≠ [])

/-! ## Preview store (`PreviewImage` rows; `backend/item/views.py`)

A `PreviewImage` row has an integer `order`, raw bytes and a content type; the
item's stored set is modelled as a list of rows (the list order itself carries
no meaning — every endpoint re-sorts with `order_by('order')`). -/

structure PreviewRow where
  order : Nat
  data : List Nat
  content_type : List Char
deriving DecidableEq, Repr

/-- Insert a row into a list sorted by `order` (used to model
`order_by('order')`). -/
def insertByOrder (r : PreviewRow) : List PreviewRow → List PreviewRow
  | [] => [r]
  | x :: xs => if r.order ≤ x.order then r :: x :: xs else x :: insertByOrder r xs

/-- Model of `item.preview_images.order_by('order')`. -/
def sortRows : List PreviewRow → List PreviewRow
  | [] => []
  | x :: xs => insertByOrder x (sortRows xs)

/-- Python `max(imgs, key=lambda x: len(x.data or b''))`: the first element of
the list whose payload length is maximal (`max` replaces the running best only
on a strictly greater key). -/
def pickBest : List PreviewRow → Option PreviewRow
  | [] => none
  | x :: xs =>
    some (xs.foldl (fun acc y => if acc.data.length < y.data.length then y else acc) x)

/-- Python `ct or 'application/octet-stream'`. -/
def ctOrDefault (ct : List Char) : List Char :=
  if ct.isEmpty then "application/octet-stream".data else ct

/-- Responses of the `preview` endpoint. -/
inductive PreviewResponse where
  /-- `HttpResponse(img.data, content_type=...)` -/
  | bytesResp (data : List Nat) (content_type : List Char)
  /-- 400 `invalid index` -/
  | badRequest
  /-- 404 (`index out of range` / `No preview`) -/
  | notFound
deriving DecidableEq, Repr

/-- Model of `ItemViewSet.preview`.  `idxParam` is the parsed `?index=` value
(`none` when absent; the unparsable-index 400 branch is omitted as it never
reaches the selection logic).  `legacyData`/`legacyCt` are the item's
`preview_data`/`preview_content_type` fields (`none` = NULL). -/
def preview (rows : List PreviewRow) (legacyData : Option (List Nat))
    (legacyCt : List Char) (idxParam : Option Int) : PreviewResponse :=
  let imgs := sortRows rows
  match idxParam with
  | some idx =>
    if idx < 0 || imgs.length ≤ idx.toNat then PreviewResponse.notFound
    else
      match imgs.get? idx.toNat with
      | some img => PreviewResponse.bytesResp img.data (ctOrDefault img.content_type)
      | none => PreviewResponse.notFound
  | none =>
    match pickBest imgs with
    | some best => PreviewResponse.bytesResp best.data (ctOrDefault best.content_type)
    | none =>
      match legacyData with
      | some d =>
        if d ≠ [] then PreviewResponse.bytesResp d (ctOrDefault legacyCt)
        else PreviewResponse.notFound
      | none => PreviewResponse.notFound

/-- A fetched candidate: `(url, body, content_type)` as collected by
`fetch_and_save_preview`. -/
structure Cand where
  url : List Char
  body : List Nat
  ctype : List Char
deriving DecidableEq, Repr

/-- Rows created by the persist loop of `fetch_and_save_preview`:
`for idx, (url, body, ctype) in enumerate(candidates): create(order=idx, ...)`,
where a failing `create` (position `i` with `oks.getD i true = false`) is
logged and skipped while `idx` keeps advancing.  `i` is the enumeration index
of the first candidate in `cands`. -/
def savedRows (i : Nat) : List Cand → List Bool → List PreviewRow
  | [], _ => []
  | c :: cs, [] => ⟨i, c.body, c.ctype⟩ :: savedRows (i + 1) cs []
  | c :: cs, b :: bs =>
    if b then ⟨i, c.body, c.ctype⟩ :: savedRows (i + 1) cs bs
    else savedRows (i + 1) cs bs

/-- Model of the persist phase of `fetch_and_save_preview` (lines 507-522):
delete the item's existing `PreviewImage` rows, then create one row per
candidate; returns the new stored set and whether the endpoint reports success
(`saved` nonempty — otherwise it returns HTTP 500). -/
def replacePreviews (cands : List Cand) (oks : List Bool) (_prior : List PreviewRow) :
    List PreviewRow × Bool :=
  let rows := savedRows 0 cands oks
  (rows, !rows.isEmpty)

/-- Reindex rows to contiguous orders 0.. (the re-order loop of the DELETE
branch of `preview_index`). -/
def renumber (l : List PreviewRow) : List PreviewRow :=
  l.enum.map (fun p => { p.2 with order := p.1 })

/-- Model of the DELETE branch of `ItemViewSet.preview_index`: sort by order,
reject an out-of-range index (404), otherwise delete the targeted row and
renumber the remaining rows contiguously.  Returns the new stored set and
whether a deletion happened. -/
def deletePreviewAt (idx : Int) (s : List PreviewRow) : List PreviewRow × Bool :=
  let imgs := sortRows s
  if idx < 0 || imgs.length ≤ idx.toNat then (s, false)
  else (renumber (imgs.eraseIdx idx.toNat), true)

/-- A preview-store operation, as the claims quantify over them. -/
inductive StoreOp where
  /-- the save terminal mode: replace the stored set with the candidates,
  `oks` telling which individual blob saves succeed (default: succeed) -/
  | replace (cands : List Cand) (oks : List Bool)
  /-- single-index delete through `preview_index` -/
  | deleteAt (idx : Int)
deriving Repr

/-- Apply one store operation to an item's stored set. -/
def applyStoreOp (s : List PreviewRow) : StoreOp → List PreviewRow
  | StoreOp.replace cands oks => (replacePreviews cands oks s).1
  | StoreOp.deleteAt idx => (deletePreviewAt idx s).1

/-- Run a sequence of store operations on an initially empty stored set. -/
def runStoreOps (ops : List StoreOp) : List PreviewRow :=
  ops.foldl applyStoreOp []

/-- The claimed invariant: the `order` values, read in sorted order, are
exactly `0, 1, ..., n-1`. -/
def ordersContiguous (s : List PreviewRow) : Prop :=
  (sortRows s).map PreviewRow.order = List.range s.length

instance (s : List PreviewRow) : Decidable (ordersContiguous s) := by
  unfold ordersContiguous; infer_instance

/-- An operation whose individual blob saves all succeed. -/
def opAllSavesOk : StoreOp → Prop
  | StoreOp.replace _ oks => ∀ b ∈ oks, b = true
  | StoreOp.deleteAt _ => True

instance (op : StoreOp) : Decidable (opAllSavesOk op) := by
  cases op <;> (unfold opAllSavesOk; infer_instance)

/-! ## Pixiv URL normalizer (`backend/item/playwright_helper.py`)

`make_pixiv_original_candidate` rewrites a thumbnail URL's path with four
regex/replace steps and rebuilds the URL; a non-pixiv host is returned
unchanged.  The regex substitutions are modelled by explicit scanners with the
semantics of `re.sub`: scan left to right, replace each match, resume scanning
after the replaced text. -/

/-- Model of `_is_pixiv_host`. -/
def is_pixiv_host (h : List Char) : Bool :=
  if h.isEmpty then false
  else containsSub "pixiv".data h || containsSub "pximg".data h
    || containsSub "i.pximg.net".data h

/-- Match `_master\d+(?=\.)` at the head of `l`; on success return the rest of
the string starting at the dot (the lookahead is not consumed). -/
def matchMasterDot (l : List Char) : Option (List Char) :=
  if ("_master".data).isPrefixOf l then
    let p := takeDigits (l.drop 7)
    if p.1.isEmpty then none
    else if p.2.head? = some '.' then some p.2 else none
  else none

/-- `re.sub(r'_master\d+(?=\.)', '', path)` with fuel (`subMasterDot` supplies
it; one fuel unit per scanner step suffices since every step strictly shortens
the remainder). -/
def subMasterDotAux : Nat → List Char → List Char
  | _, [] => []
  | 0, l => l
  | fuel + 1, c :: cs =>
    match matchMasterDot (c :: cs) with
    | some r => subMasterDotAux fuel r
    | none => c :: subMasterDotAux fuel cs

/-- `re.sub(r'_master\d+(?=\.)', '', path)`. -/
def subMasterDot (l : List Char) : List Char := subMasterDotAux l.length l

/-- Match `(_p\d+)_master\d+` at the head of `l`; on success return the group-1
text `_p\d+` and the rest after the whole match. -/
def matchPMaster (l : List Char) : Option (List Char × List Char) :=
  if ("_p".data).isPrefixOf l then
    let p := takeDigits (l.drop 2)
    if p.1.isEmpty then none
    else if ("_master".data).isPrefixOf p.2 then
      let q := takeDigits (p.2.drop 7)
      if q.1.isEmpty then none
      else some ('_' :: 'p' :: p.1, q.2)
    else none
  else none

/-- `re.sub(r'(_p\d+)_master\d+', r'\1', path)` with fuel. -/
def subPMasterAux : Nat → List Char → List Char
  | _, [] => []
  | 0, l => l
  | fuel + 1, c :: cs =>
    match matchPMaster (c :: cs) with
    | some p => p.1 ++ subPMasterAux fuel p.2
    | none => c :: subPMasterAux fuel cs

/-- `re.sub(r'(_p\d+)_master\d+', r'\1', path)`. -/
def subPMaster (l : List Char) : List Char := subPMasterAux l.length l

/-- Match `^/c/\d+x\d+/img-master` at the head of the path; on success return
the rest after the matched prefix. -/
def matchCropDir (l : List Char) : Option (List Char) :=
  if ("/c/".data).isPrefixOf l then
    let p := takeDigits (l.drop 3)
    if p.1.isEmpty then none
    else if p.2.head? = some 'x' then
      let q := takeDigits (p.2.drop 1)
      if q.1.isEmpty then none
      else if ("/img-master".data).isPrefixOf q.2 then some (q.2.drop 11)
      else none
    else none
  else none

/-- `re.sub(r'^/c/\d+x\d+/img-master', '/img-master', path)` (the `^` anchor
means at most one replacement, at the start). -/
def stripCropDir (l : List Char) : List Char :=
  match matchCropDir l with
  | some r => "/img-master".data ++ r
  | none => l

/-- The path-rewriting pipeline of `make_pixiv_original_candidate`. -/
def normalizePixivPath (path : List Char) : List Char :=
  let p1 := stripCropDir path
  let p2 := replaceAll "/img-master/".data "/img-original/".data p1
  let p3 := subMasterDot p2
  let p4 := subPMaster p3
  if containsSub "/img-original/".data p4
      && !containsSub "/img-original/img/".data p4 then
    replaceFirst "/img-original/".data "/img-original/img/".data p4
  else p4

/-- Model of `make_pixiv_original_candidate(url)`: parse, return non-pixiv
hosts unchanged, otherwise rebuild `f"{scheme}://{netloc}{path}"` from the
rewritten path (query and fragment are dropped by the reconstruction). -/
def make_pixiv_original_candidate (url : List Char) : List Char :=
  let p := parseUrl url
  if !is_pixiv_host p.netloc then url
  else p.scheme ++ "://".data ++ p.netloc ++ normalizePixivPath p.path

/-! ## Multi-page expansion (`fetch_images_with_playwright`, lines 355-391) -/

/-- `MAX_PAGES` from `playwright_helper.py`. -/
def MAX_PAGES : Nat := 8

/-- Match `_p\d+` at the head of `l`; on success return the rest after the
digits. -/
def matchPTok (l : List Char) : Option (List Char) :=
  if ("_p".data).isPrefixOf l then
    let p := takeDigits (l.drop 2)
    if p.1.isEmpty then none else some p.2
  else none

/-- `re.search(r'_p\d+', path)`: does the page token occur anywhere? -/
def hasPTok : List Char → Bool
  | [] => false
  | c :: cs => (matchPTok (c :: cs)).isSome || hasPTok cs

/-- Composition of `re.sub(r'(_p)\d+', r'\1{}', u)` with `.format(i)`: every
`_p\d+` occurrence in the URL is replaced by `_p<i>` (faithful for URLs without
literal brace characters, which `str.format` would treat as format syntax). -/
def subPageNumAux (digits : List Char) : Nat → List Char → List Char
  | _, [] => []
  | 0, l => l
  | fuel + 1, c :: cs =>
    match matchPTok (c :: cs) with
    | some r => '_' :: 'p' :: (digits ++ subPageNumAux digits fuel r)
    | none => c :: subPageNumAux digits fuel cs

/-- Substitute page number `i` into every `_p\d+` token of `u`. -/
def subPageNum (u : List Char) (i : Nat) : List Char :=
  subPageNumAux (Nat.repr i).data u.length u

/-- One candidate URL of the per-page loop: the sibling for page `i`,
independently normalized (`make_pixiv_original_candidate(base_template.format(i))`). -/
def pageCandidate (u : List Char) (i : Nat) : List Char :=
  make_pixiv_original_candidate (subPageNum u i)

/-! ## The Pixiv Playwright helper (`fetch_images_with_playwright`)

Browser interaction is modelled through an environment: what the response
listener captured during page load, which URLs the rendered DOM exposes, and
what each in-page fetch would return.  The helper's control flow — including
the reference to the local variable `pixiv_imgs` at the
`if not captured_map and pixiv_imgs:` guard (line 120), which Python only
assigns about a hundred lines later (line 225) — is translated as is: when
`captured_map` is empty the guard's left conjunct is true, the right operand
is evaluated, and a `NameError` propagates out of the helper. -/

/-- Environment for one `fetch_images_with_playwright` run. -/
structure PwEnv where
  /-- whether the playwright import succeeded (`HAVE_PLAYWRIGHT`) -/
  havePlaywright : Bool
  /-- whether `PIXIV_USER`/`PIXIV_PASS` are configured -/
  credsSet : Bool
  /-- outcome of the cookie-based login heuristic -/
  loggedIn : Bool
  /-- image responses recorded by the `page.on('response')` listener while the
  target page loaded: `(url, body?, content_type)`, `none` body when
  `r.body()` raised -/
  captured : List (List Char × Option (List Nat) × List Char)
  /-- image URLs collected from the rendered DOM (og:image, `img` src/srcset/
  data-src), absolutized, in collection order -/
  domImgs : List (List Char)
  /-- result of `_fetch_via_page(url)`: `none` models every failure path -/
  pageFetch : List Char → Option (List Nat × List Char)
  /-- whether the generic renderer import succeeded (`HAVE_RENDERER`) -/
  haveRenderer : Bool
  /-- result of the fallback `fetch_rendered_media` call; `none` models a
  raised exception (caught, treated as `[]`) -/
  renderedResult : Option (List (List Char))

/-- Python exceptions the helper can raise. -/
inductive PwError where
  /-- `RuntimeError('playwright not available')` -/
  | playwrightUnavailable
  /-- `RuntimeError('PIXIV_USER/PIXIV_PASS not set in environment')` -/
  | credsMissing
  /-- `NameError`: `pixiv_imgs` referenced at line 120 before its assignment
  at line 225 -/
  | nameErrorPixivImgs
  /-- `IndexError`: `imgs[0]` with `imgs == []` at line 245 -/
  | indexErrorNoImgs
deriving DecidableEq, Repr

/-- One record of the helper's `attempted_fetches` debug list. -/
structure AttemptRec where
  url : List Char
  size : Nat
  content_type : List Char
  phase : List Char
deriving DecidableEq, Repr

/-- State threaded through the helper's fetch loops. -/
structure PwLoopState where
  results : List (Nat × List Nat × List Char × List Char)
  seen : List (List Char)
  attempts : List AttemptRec
deriving Repr

/-- The `captured_map` dict comprehension: keep captured entries with a body;
on duplicate URLs the later entry wins, as with a Python dict. -/
def capturedPairs (captured : List (List Char × Option (List Nat) × List Char)) :
    List (List Char × List Nat × List Char) :=
  captured.filterMap (fun e => (e.2.1).map (fun b => (e.1, b, e.2.2)))

/-- `captured_map.get(u, (None, None))` with fallback to `_fetch_via_page`
(under `try/except` producing `(None, None)`), exactly as both fetch loops do. -/
def pwFetchUrl (env : PwEnv) (cmap : List (List Char × List Nat × List Char))
    (u : List Char) : Option (List Nat) × List Char :=
  match (cmap.reverse).find? (fun e => e.1 = u) with
  | some e => (some e.2.1, e.2.2)
  | none =>
    match env.pageFetch u with
    | some p => (some p.1, p.2)
    | none => (none, [])

/-- Append one attempted fetch record (`attempted_fetches.append(...)`). -/
def recAttempt (st : PwLoopState) (u : List Char) (body : Option (List Nat))
    (ct : List Char) (phase : List Char) : PwLoopState :=
  { st with attempts := st.attempts ++ [⟨u, (body.getD []).length, ct, phase⟩] }

/-- One iteration of the per-page inner loop (`for i in range(0, MAX_PAGES)`),
lines 366-391: substitute page `i`, normalize, skip if already in `seen_urls`,
otherwise record it in `seen_urls`, fetch it (captured responses preferred),
record the attempt, and keep bodies of at least 10240 bytes as results. -/
def pwPageStep (env : PwEnv) (cmap : List (List Char × List Nat × List Char))
    (u : List Char) (st : PwLoopState) (i : Nat) : PwLoopState :=
  let ci := pageCandidate u i
  if st.seen.contains ci then st
  else
    let st := { st with seen := st.seen ++ [ci] }
    let r := pwFetchUrl env cmap ci
    let st := recAttempt st ci r.1 r.2 "main".data
    match r.1 with
    | some b =>
      if 10240 ≤ b.length then
        { st with results := st.results ++ [(i, b, r.2, ci)] }
      else st
    | none => st

/-- The per-candidate body of the main fetch loop (lines 355-391): a URL whose
path contains `_p<N>` is expanded to pages `0..MAX_PAGES-1`, each substituted
and independently normalized, deduplicated against `seen_urls`; a URL without
the token is attempted once, normalized.  Fetched bodies of at least 10240
bytes are kept as results. -/
def pwProcessCandidate (env : PwEnv)
    (cmap : List (List Char × List Nat × List Char)) (st : PwLoopState)
    (u : List Char) : PwLoopState :=
  if hasPTok (parseUrl u).path then
    (List.range MAX_PAGES).foldl (pwPageStep env cmap u) st
  else
    let c := make_pixiv_original_candidate u
    if st.seen.contains c then st
    else
      let st := { st with seen := st.seen ++ [c] }
      let r := pwFetchUrl env cmap c
      let st := recAttempt st c r.1 r.2 "main".data
      match r.1 with
      | some b =>
        if 10240 ≤ b.length then
          { st with results := st.results ++ [(0, b, r.2, c)] }
        else st
      | none => st

/-- The body of the rendered-media fallback loop (lines 426-470). -/
def pwFallbackStep (env : PwEnv)
    (cmap : List (List Char × List Nat × List Char)) (st : PwLoopState)
    (h : List Char) : PwLoopState :=
  if h.isEmpty then st
  else if st.seen.contains h then st
  else
    let st := { st with seen := st.seen ++ [h] }
    let r := pwFetchUrl env cmap h
    let st := recAttempt st h r.1 r.2 "pw_fallback".data
    let ok :=
      ("image".data).isPrefixOf r.2
        && (match r.1 with | some b => decide (10240 ≤ b.length) | none => false)
    if ok then
      { st with results := st.results ++ [(0, (r.1).getD [], r.2, h)] }
    else
      let cand := make_pixiv_original_candidate h
      if st.seen.contains cand then st
      else
        let st := { st with seen := st.seen ++ [cand] }
        let r2 := pwFetchUrl env cmap cand
        let st := recAttempt st cand r2.1 r2.2 "pw_fallback".data
        match r2.1 with
        | some b2 =>
          if 10240 ≤ b2.length then
            { st with results := st.results ++ [(0, b2, r2.2, cand)] }
          else st
        | none => st

/-- The helper's return value on the non-raising path. -/
structure PwResult where
  logged_in : Bool
  images : List (Nat × List Nat × List Char × List Char)
  attempted : List AttemptRec
deriving Repr

/-- Model of `fetch_images_with_playwright`.  The two `RuntimeError` guards
run before the browser is launched; after launch, an empty `captured_map`
makes line 120 evaluate the not-yet-assigned `pixiv_imgs` and raise
`NameError` (skipping `browser.close()`), and an empty DOM image list with no
pixiv-hosted images raises `IndexError` at `imgs[0]`. -/
def fetch_images_with_playwright (env : PwEnv) : Except PwError PwResult :=
  if !env.havePlaywright then Except.error PwError.playwrightUnavailable
  else if !env.credsSet then Except.error PwError.credsMissing
  else
    let cmap := capturedPairs env.captured
    if cmap.isEmpty then Except.error PwError.nameErrorPixivImgs
    else
      let imgs := env.domImgs
      let pixiv_imgs := imgs.filter (fun u => is_pixiv_host (parseUrl u).netloc)
      let cands? : Except PwError (List (List Char)) :=
        if !pixiv_imgs.isEmpty then Except.ok pixiv_imgs
        else
          match imgs with
          | [] => Except.error PwError.indexErrorNoImgs
          | i0 :: _ => Except.ok [i0]
      match cands? with
      | Except.error e => Except.error e
      | Except.ok candidates =>
        let st := candidates.foldl (pwProcessCandidate env cmap) ⟨[], [], []⟩
        let st :=
          if st.results.isEmpty && env.haveRenderer then
            (env.renderedResult.getD []).foldl (pwFallbackStep env cmap) st
          else st
        Except.ok ⟨env.loggedIn, st.results, st.attempts⟩

/-! ## Candidate collection in `ItemViewSet.fetch_and_save_preview`
(`backend/item/views.py`, lines 123-475)

The network is an environment function from URL to HTTP response; every
`_internal_fetch(url, min_size)` is `fetch_image_via_requests` applied to that
response, and every external request is recorded in a trace.  HTML parsing
(BeautifulSoup / regex hint extraction) is pure string processing outside the
claims, so the hints extracted from the fetched document are an environment
input. -/

/-- Model of `urllib.parse.urljoin(base, h)` for the URL shapes exercised
here: an absolute hint is returned unchanged, a root-relative hint is resolved
against the base's scheme and netloc; other relative forms are approximated by
concatenation. -/
def urljoin (base h : List Char) : List Char :=
  if containsSub "://".data h then h
  else if h.head? = some '/' then
    (parseUrl base).scheme ++ "://".data ++ (parseUrl base).netloc ++ h
  else base ++ h

/-- Environment of one `fetch_and_save_preview` request. -/
structure HandlerEnv where
  /-- the network: response delivered for a GET of each URL (`none` = raise) -/
  resp : List Char → Option HttpResponse
  /-- image hints extracted from the fetched target HTML (og:image,
  twitter:image, react-root anchors, `img` tags, figure imgs / regex fallback) -/
  hints : List (List Char)
  /-- environment of the twitter helper backends -/
  tw : TwEnv
  /-- whether `HEADLESS_ALLOWED` is set -/
  headlessAllowed : Bool
  /-- whether the pixiv playwright helper imported (`HAVE_PIXIV_PLAYWRIGHT`) -/
  havePixivPlaywright : Bool
  /-- environment for `fetch_images_with_playwright` -/
  pixiv : PwEnv
  /-- result of the generic `fetch_rendered_media` call (`none` = raise) -/
  renderedResult : Option (List (List Char))

/-- `_internal_fetch(url, min_size)` = `_fetch_image_via_requests` on the
response the network delivers for `url`. -/
def internalFetch (env : HandlerEnv) (u : List Char) (min_size : Option Nat) :
    Option (List Nat × List Char) :=
  fetch_image_via_requests (env.resp u) min_size

/-- `('twitter.com' in target_url) or ('x.com' in target_url)`. -/
def isTwitterTarget (target : List Char) : Bool :=
  containsSub "twitter.com".data target || containsSub "x.com".data target

/-- `('pixiv.net' in target_url or 'pximg.net' in target_url)`. -/
def isPixivTarget (target : List Char) : Bool :=
  containsSub "pixiv.net".data target || containsSub "pximg.net".data target

/-- Terminal outcomes of the candidate-collection phase. -/
inductive CollectOutcome where
  /-- 422 `'TW_BEARER not configured on server; API fetch unavailable'` -/
  | missingBearer
  /-- 422 `'API fetch returned no media for this tweet'` -/
  | apiNoMedia
  /-- 403 `'Playwright/headless fetch is not allowed in this environment'` -/
  | headlessForbidden
  /-- 422 `'Playwright fetch failed'` -/
  | playwrightFailed
  /-- 422 `'No image candidates found or failed to fetch'` -/
  | noCandidates
  /-- collection succeeded; the handler proceeds to the preview/save phase
  with these candidates -/
  | ready (cands : List Cand)
deriving DecidableEq, Repr

/-- State of the HTML-phase aggregation: collected candidates and the `seen`
URL set. -/
structure CollectState where
  cands : List Cand
  seen : List (List Char)
  trace : List NetCall
deriving Repr

/-- The hint loop (lines 236-251): resolve each hint against the target URL,
skip URLs already seen, record the URL in `seen` before fetching, keep
successful fetches as candidates. -/
def hintStep (env : HandlerEnv) (target : List Char) (st : CollectState)
    (h : List Char) : CollectState :=
  if h.isEmpty then st
  else
    let cand_url := urljoin target h
    if st.seen.contains cand_url then st
    else
      let st := { st with seen := st.seen ++ [cand_url],
                          trace := st.trace ++ [NetCall.get cand_url] }
      match internalFetch env cand_url none with
      | some bc => { st with cands := st.cands ++ [⟨cand_url, bc.1, bc.2⟩] }
      | none => st

/-- The twitter-helper merge loop (lines 257-274): skip API-tagged URLs, skip
URLs already seen, fetch, and on success append the candidate and record the
URL in `seen`. -/
def twMergeStep (env : HandlerEnv) (st : CollectState)
    (p : List Char × TwBackend) : CollectState :=
  if p.2 = TwBackend.api then st
  else if st.seen.contains p.1 then st
  else
    let st := { st with trace := st.trace ++ [NetCall.get p.1] }
    match internalFetch env p.1 none with
    | some bc =>
      { st with cands := st.cands ++ [⟨p.1, bc.1, bc.2⟩], seen := st.seen ++ [p.1] }
    | none => st

/-- The HTML phase (lines 163-277): fetch the target document, run the hint
loop, and for twitter/x targets merge the non-API results of the unified
twitter helper. -/
def htmlPhase (env : HandlerEnv) (target : List Char) : CollectState :=
  let st : CollectState := ⟨[], [], [NetCall.get target]⟩
  let st := env.hints.foldl (hintStep env target) st
  if isTwitterTarget target then
    let st := { st with trace := st.trace ++ twHelperTrace env.tw target }
    (fetch_twitter_media_urls_with_sources env.tw target).foldl (twMergeStep env) st
  else st

/-- The fetch loop of the forced-API branch (lines 293-300) and of its
429-fallback (lines 326-333): fetch each URL, keep successes; no `seen`
deduplication is applied here. -/
def apiFetchLoop (env : HandlerEnv) (urls : List (List Char)) :
    List Cand × List NetCall :=
  urls.foldl
    (fun acc u =>
      match internalFetch env u none with
      | some bc => (acc.1 ++ [⟨u, bc.1, bc.2⟩], acc.2 ++ [NetCall.get u])
      | none => (acc.1, acc.2 ++ [NetCall.get u]))
    ([], [])

/-- The forced-API branch (lines 281-357), entered when `force_method ==
'api'` and the target is twitter/x.  Returns either a terminal outcome or the
(possibly replaced) candidate list. -/
def apiBranch (env : HandlerEnv) (target : List Char) (st : CollectState) :
    Except CollectOutcome (List Cand) × List NetCall :=
  if !env.tw.bearer then (Except.error CollectOutcome.missingBearer, [])
  else
    let tw_urls := fetch_twitter_media_urls_with_sources env.tw target
    let api_only := (tw_urls.filter (fun p => p.2 = TwBackend.api)).map Prod.fst
    let fetched := apiFetchLoop env api_only
    let tr := twHelperTrace env.tw target ++ fetched.2
    if !fetched.1.isEmpty then (Except.ok fetched.1, tr)
    else if env.tw.lastApiStatus = some 429 then
      let tw_urls2 := fetch_twitter_media_urls_with_sources env.tw target
      let fallbacks := (tw_urls2.filter (fun p => p.2 ≠ TwBackend.api)).map Prod.fst
      let fetched2 := apiFetchLoop env fallbacks
      let tr := tr ++ twHelperTrace env.tw target ++ fetched2.2
      if !fetched2.1.isEmpty then (Except.ok fetched2.1, tr)
      else if !st.cands.isEmpty then (Except.ok st.cands, tr)
      else (Except.error CollectOutcome.apiNoMedia, tr)
    else if !st.cands.isEmpty then (Except.ok st.cands, tr)
    else (Except.error CollectOutcome.apiNoMedia, tr)

/-- The pixiv-helper merge loop of the playwright branch (lines 398-421):
each helper entry `(idx, body, ctype, cand_url)` is appended as a candidate
unless its URL is missing, its type is SVG, or its body is under 10240 bytes.
No `seen` deduplication is applied. -/
def pixivMergeStep (st : List Cand) (e : Nat × List Nat × List Char × List Char) :
    List Cand :=
  let body := e.2.1
  let ctype := e.2.2.1
  let cand_url := e.2.2.2
  if cand_url.isEmpty then st
  else if (splitSemi1 (ctype.map Char.toLower)) = "image/svg+xml".data then st
  else if body.length < 10240 then st
  else st ++ [⟨cand_url, body, splitSemi1 ctype⟩]

/-- The rendered-URL fetch loop of the playwright branch (lines 441-451):
fetch each discovered URL with a 10 KB floor and keep successes; no `seen`
deduplication is applied. -/
def renderedFetchLoop (env : HandlerEnv) (cands : List Cand)
    (urls : List (List Char)) : List Cand × List NetCall :=
  urls.foldl
    (fun acc h =>
      if h.isEmpty then acc
      else
        match internalFetch env h (some 10240) with
        | some bc => (acc.1 ++ [⟨h, bc.1, bc.2⟩], acc.2 ++ [NetCall.get h])
        | none => (acc.1, acc.2 ++ [NetCall.get h]))
    (cands, [])

/-- The forced-playwright branch (lines 367-451). -/
def playwrightBranch (env : HandlerEnv) (target : List Char)
    (cands : List Cand) : Except CollectOutcome (List Cand) × List NetCall :=
  if !env.headlessAllowed then (Except.error CollectOutcome.headlessForbidden, [])
  else
    let pix :=
      if isPixivTarget target && env.havePixivPlaywright then
        match fetch_images_with_playwright env.pixiv with
        | Except.ok res => (cands ++ res.images.foldl pixivMergeStep [], [NetCall.render])
        | Except.error _ => (cands, [NetCall.render])
      else (cands, [])
    let pixiv_handled := cands.length < pix.1.length
    if pixiv_handled then (Except.ok pix.1, pix.2)
    else
      match env.renderedResult with
      | none => (Except.error CollectOutcome.playwrightFailed, pix.2 ++ [NetCall.render])
      | some pw_urls =>
        let r := renderedFetchLoop env pix.1 pw_urls
        (Except.ok r.1, pix.2 ++ [NetCall.render] ++ r.2)

/-- The final size filter (lines 460-471): when playwright was forced, keep
only candidates of at least 10240 bytes. -/
def playwrightSizeFilter (force : Option (List Char)) (cands : List Cand) :
    List Cand :=
  if force = some "playwright".data then
    cands.filter (fun c => 10240 ≤ c.body.length)
  else cands

/-- The candidate-collection phase of `fetch_and_save_preview`: direct fetch
of the target first; otherwise the HTML phase, then the forced-API or
forced-playwright branch, the empty-candidates check, and the playwright size
filter.  Returns the outcome and the trace of external requests in order. -/
def collectCandidates (env : HandlerEnv) (target : List Char)
    (force : Option (List Char)) : CollectOutcome × List NetCall :=
  let direct := internalFetch env target none
  match direct with
  | some bc => (CollectOutcome.ready [⟨target, bc.1, bc.2⟩], [NetCall.get target])
  | none =>
    let st := htmlPhase env target
    let afterBranch : Except CollectOutcome (List Cand) × List NetCall :=
      if force = some "api".data && isTwitterTarget target then
        apiBranch env target st
      else if force = some "playwright".data then
        playwrightBranch env target st.cands
      else (Except.ok st.cands, [])
    match afterBranch.1 with
    | Except.error out => (out, [NetCall.get target] ++ st.trace ++ afterBranch.2)
    | Except.ok cands =>
      let tr := [NetCall.get target] ++ st.trace ++ afterBranch.2
      if cands.isEmpty then (CollectOutcome.noCandidates, tr)
      else (CollectOutcome.ready (playwrightSizeFilter force cands), tr)

/-! ## Concrete inputs used to exercise the theorems -/

/-- A Playwright environment with no captured responses and failing page
fetches. -/
def pwEnvTrivial : PwEnv :=
  ⟨true, true, true, [], [], fun _ => none, false, none⟩

/-- A pixiv thumbnail URL carrying the multi-page token `_p0`. -/
def uPixivP0 : List Char :=
  "https://i.pximg.net/img-master/img/2024/111_p0_master1200.jpg".data

/-- A twitter environment with no bearer credential and failing backends. -/
def twEnvNoBearer : TwEnv :=
  ⟨"api".data, false, false, [], none, true, [], true, []⟩

/-- A tweet URL used as a concrete target. -/
def uTweet : List Char := "https://twitter.com/a/status/1".data

/-- Handler environment for the forced-API counterexample: every network
fetch fails, no hints, no bearer credential. -/
def envApiNoBearer : HandlerEnv :=
  ⟨fun _ => none, [], twEnvNoBearer, false, false, pwEnvTrivial, none⟩

/-- A non-twitter, non-pixiv target page. -/
def uGallery : List Char := "https://gallery.example/post/1".data

/-- A hint URL discovered both in the page HTML and by the rendered session. -/
def uHintC4 : List Char := "https://gallery.example/media/full.jpg".data

/-- A 10 KB payload (the handler's minimum size for playwright candidates). -/
def bigBody : List Nat := List.replicate 10240 0

/-- Handler environment for the playwright-duplication counterexample,
parametric in the payload: the direct fetch of the target fails, the HTML
hint `uHintC4` fetches successfully, and the rendered session discovers the
same URL again. -/
def envC4p (body : List Nat) : HandlerEnv :=
  ⟨fun u => if u = uHintC4 then some ⟨200, "image/jpeg".data, body⟩ else none,
   [uHintC4], twEnvNoBearer, true, false, pwEnvTrivial, some [uHintC4]⟩

/-- The concrete duplication environment, with a 10 KB payload. -/
def envC4 : HandlerEnv := envC4p bigBody

/-- Handler environment whose direct fetch of `uGallery` succeeds. -/
def envDirect : HandlerEnv :=
  ⟨fun u => if u = uGallery then some ⟨200, "image/png".data, [1, 2, 3]⟩ else none,
   [], twEnvNoBearer, false, false, pwEnvTrivial, none⟩

-- THEOREMS BELOW

/-! ## Theorems -/

/-- C7: for every URL and every minimum-size floor N, the image fetcher
rejects any response whose payload length is strictly less than N even when
the status is success and the media type is an acceptable image; it accepts a
payload whose length equals N; and with no floor given, payload size is not
checked. -/
theorem C7_fetch_min_size (r : HttpResponse) (n : Nat)
    (hs : r.statusCode = 200)
    (hct : ("image".data).isPrefixOf (splitSemi1 r.contentType) = true)
    (hsvg : (splitSemi1 r.contentType).map Char.toLower ≠ "image/svg+xml".data) :
    (r.content.length < n → fetch_image_via_requests (some r) (some n) = none)
    ∧ (r.content.length = n →
        fetch_image_via_requests (some r) (some n)
          = some (r.content, (splitSemi1 r.contentType).map Char.toLower))
    ∧ fetch_image_via_requests (some r) none
        = some (r.content, (splitSemi1 r.contentType).map Char.toLower) := by
  have hne : r.contentType.isEmpty = false := by
    cases hcc : r.contentType with
    | nil => rw [hcc] at hct; simp [splitSemi1, List.isPrefixOf] at hct
    | cons a l => simp
  refine ⟨fun hlt => ?_, fun heq => ?_, ?_⟩
  · simp [fetch_image_via_requests, hs, hne, hct, hsvg, hlt]
  · simp [fetch_image_via_requests, hs, hne, hct, hsvg, heq]
  · simp [fetch_image_via_requests, hs, hne, hct, hsvg]

/-- C7 witness: a 3-byte `image/png` 200 response is rejected under floor 4,
accepted under floor 3, and accepted with no floor. -/
theorem C7_witness :
    fetch_image_via_requests (some ⟨200, "image/png".data, [0, 1, 2]⟩) (some 4) = none
    ∧ fetch_image_via_requests (some ⟨200, "image/png".data, [0, 1, 2]⟩) (some 3)
        = some ([0, 1, 2], "image/png".data)
    ∧ fetch_image_via_requests (some ⟨200, "image/png".data, [0, 1, 2]⟩) none
        = some ([0, 1, 2], "image/png".data) := by
  have h4 := C7_fetch_min_size ⟨200, "image/png".data, [0, 1, 2]⟩ 4 rfl (by decide) (by decide)
  have h3 := C7_fetch_min_size ⟨200, "image/png".data, [0, 1, 2]⟩ 3 rfl (by decide) (by decide)
  exact ⟨h4.1 (by decide), h3.2.1 rfl, h3.2.2⟩

/-- C5: the Pixiv Playwright helper does NOT complete without error when no
image responses were captured passively during page load: with credentials
configured and an empty capture list, the `if not captured_map and
pixiv_imgs:` guard at line 120 evaluates the local `pixiv_imgs` before its
assignment at line 225 and the helper raises `NameError`, skipping
`browser.close()`.  This theorem evaluates the translated helper at such an
input. -/
theorem C5_name_error :
    fetch_images_with_playwright
      ⟨true, true, true, [], ["https://i.pximg.net/img/a.jpg".data],
        fun _ => none, true, some []⟩
      = Except.error PwError.nameErrorPixivImgs := rfl

/-- C2 counterexample: the save terminal mode deletes the prior set before
saving, so when every blob save of the replacing operation fails the endpoint
signals failure (500) but the previously stored preview set is already gone. -/
theorem C2_counterexample :
    (replacePreviews [⟨"u1".data, [1], "image/png".data⟩] [false]
        [⟨0, [7], "image/png".data⟩]).2 = false
    ∧ (replacePreviews [⟨"u1".data, [1], "image/png".data⟩] [false]
        [⟨0, [7], "image/png".data⟩]).1 = []
    ∧ ([⟨0, [7], "image/png".data⟩] : List PreviewRow) ≠ [] := by decide

/-- The persist loop keeps no row exactly when no individual save succeeded. -/
theorem savedRows_ne_nil_iff (cands : List Cand) (oks : List Bool) (i : Nat) :
    savedRows i cands oks ≠ [] ↔ ∃ j, j < cands.length ∧ oks.getD j true = true := by
  induction cands generalizing i oks with
  | nil => simp [savedRows]
  | cons c cs ih =>
    cases oks with
    | nil =>
      simp only [savedRows]
      constructor
      · intro _
        exact ⟨0, by simp, by simp⟩
      · intro _
        simp
    | cons b bs =>
      cases b with
      | true =>
        simp only [savedRows, if_pos rfl]
        constructor
        · intro _
          exact ⟨0, by simp, by simp⟩
        · intro _
          simp
      | false =>
        simp only [savedRows, if_neg Bool.false_ne_true]
        rw [ih]
        constructor
        · rintro ⟨j, hj, hget⟩
          exact ⟨j + 1, by simpa using hj, by simpa using hget⟩
        · rintro ⟨j, hj, hget⟩
          cases j with
          | zero => simp at hget
          | succ j' =>
            exact ⟨j', by simpa using hj, by simpa using hget⟩

/-- C2 (amended): the save terminal mode signals success exactly when at least
one blob save succeeded; when every save fails it signals failure, but the
item's prior preview set has already been deleted — the stored set after a
total failure is empty regardless of what was stored before. -/
theorem C2_replace (cands : List Cand) (oks : List Bool) (prior : List PreviewRow) :
    ((replacePreviews cands oks prior).2 = true
      ↔ ∃ j, j < cands.length ∧ oks.getD j true = true)
    ∧ ((replacePreviews cands oks prior).2 = false
        → (replacePreviews cands oks prior).1 = []) := by
  unfold replacePreviews
  simp only
  constructor
  · rw [Bool.not_eq_true', List.isEmpty_eq_false]
    exact savedRows_ne_nil_iff cands oks 0
  · intro h
    rw [Bool.not_eq_false', List.isEmpty_iff] at h
    exact h

/-- C2 witness: a concrete total failure leaves the store empty, and a
concrete partial failure reports success. -/
theorem C2_witness :
    (replacePreviews [⟨"a".data, [1], []⟩, ⟨"b".data, [2], []⟩] [false, false]
        [⟨0, [9], []⟩]).1 = []
    ∧ (replacePreviews [⟨"a".data, [1], []⟩, ⟨"b".data, [2], []⟩] [false, true]
        [⟨0, [9], []⟩]).2 = true := by
  refine ⟨(C2_replace [⟨"a".data, [1], []⟩, ⟨"b".data, [2], []⟩] [false, false]
      [⟨0, [9], []⟩]).2 (by decide), ?_⟩
  exact (C2_replace [⟨"a".data, [1], []⟩, ⟨"b".data, [2], []⟩] [false, true]
      [⟨0, [9], []⟩]).1.mpr ⟨1, by decide, by decide⟩

/-- C1 counterexample: a replace in which the middle blob save fails leaves
`order` values `0, 2` — unique but not contiguous, refuting the claim that the
invariant holds "including when individual blob saves fail". -/
theorem C1_counterexample :
    ¬ ordersContiguous (runStoreOps
      [StoreOp.replace
        [⟨"a".data, [1], []⟩, ⟨"b".data, [2], []⟩, ⟨"c".data, [3], []⟩]
        [true, false, true]]) := by decide

/-- Every row the persist loop creates from enumeration index `i` onward has
order at least `i`. -/
theorem savedRows_order_lb (cands : List Cand) (oks : List Bool) (i : Nat) :
    ∀ r ∈ savedRows i cands oks, i ≤ r.order := by
  induction cands generalizing i oks with
  | nil => intro r hr; simp [savedRows] at hr
  | cons c cs ih =>
    intro r hr
    cases oks with
    | nil =>
      simp only [savedRows, List.mem_cons] at hr
      rcases hr with rfl | h
      · exact Nat.le_refl _
      · exact Nat.le_of_succ_le (ih [] (i + 1) r h)
    | cons b bs =>
      cases b with
      | true =>
        simp only [savedRows, if_pos rfl] at hr
        cases hr with
        | head => exact Nat.le_refl _
        | tail _ h => exact Nat.le_of_succ_le (ih bs (i + 1) r h)
      | false =>
        simp only [savedRows, if_neg Bool.false_ne_true] at hr
        exact Nat.le_of_succ_le (ih bs (i + 1) r hr)

/-- The persist loop yields rows with strictly increasing `order` values. -/
theorem savedRows_pairwise (cands : List Cand) (oks : List Bool) (i : Nat) :
    List.Pairwise (fun a b => a.order < b.order) (savedRows i cands oks) := by
  induction cands generalizing i oks with
  | nil => simp [savedRows]
  | cons c cs ih =>
    cases oks with
    | nil =>
      simp only [savedRows]
      exact List.Pairwise.cons
        (fun r hr => Nat.lt_of_succ_le (savedRows_order_lb cs [] (i + 1) r hr))
        (ih [] (i + 1))
    | cons b bs =>
      cases b with
      | true =>
        simp only [savedRows, if_pos rfl]
        exact List.Pairwise.cons
          (fun r hr => Nat.lt_of_succ_le (savedRows_order_lb cs bs (i + 1) r hr))
          (ih bs (i + 1))
      | false =>
        simp only [savedRows, if_neg Bool.false_ne_true]
        exact ih bs (i + 1)

/-- With every individual save succeeding, the persist loop assigns the
consecutive orders `i, i+1, ...`. -/
theorem savedRows_allOk (cands : List Cand) (oks : List Bool) (i : Nat)
    (h : ∀ b ∈ oks, b = true) :
    (savedRows i cands oks).map PreviewRow.order = List.range' i cands.length := by
  induction cands generalizing i oks with
  | nil => simp [savedRows]
  | cons c cs ih =>
    cases oks with
    | nil =>
      simp only [savedRows, List.map_cons, List.length_cons, List.range'_succ]
      exact congrArg (List.cons i) (ih [] (i + 1) (by simp))
    | cons b bs =>
      have hb : b = true := h b (by simp)
      subst hb
      simp only [savedRows, if_pos rfl, List.map_cons, List.length_cons, List.range'_succ]
      exact congrArg (List.cons i) (ih bs (i + 1) (fun x hx => h x (by simp [hx])))

/-- Reindexing assigns exactly the orders `0, 1, ..., n-1`. -/
theorem renumber_orders (l : List PreviewRow) :
    (renumber l).map PreviewRow.order = List.range l.length := by
  unfold renumber
  rw [List.map_map]
  have : (PreviewRow.order ∘ fun p : Nat × PreviewRow => { p.2 with order := p.1 })
      = Prod.fst := by
    funext p
    rfl
  rw [this, List.enum_map_fst]

/-- Reindexing preserves list length. -/
theorem renumber_length (l : List PreviewRow) : (renumber l).length = l.length := by
  simp [renumber]

/-- Reindexed rows have strictly increasing orders. -/
theorem renumber_pairwise (l : List PreviewRow) :
    List.Pairwise (fun a b => a.order < b.order) (renumber l) := by
  have h := List.pairwise_lt_range (renumber l).length
  rw [renumber_length, ← renumber_orders l] at h
  exact List.pairwise_map.mp h

/-- Inserting below every element of a sorted list keeps it in place. -/
theorem insertByOrder_le (r : PreviewRow) (l : List PreviewRow)
    (h : ∀ y ∈ l, r.order ≤ y.order) : insertByOrder r l = r :: l := by
  cases l with
  | nil => rfl
  | cons x xs =>
    unfold insertByOrder
    rw [if_pos (h x (by simp))]

/-- Sorting a list already sorted by `order` returns it unchanged. -/
theorem sortRows_eq_self (l : List PreviewRow)
    (h : List.Pairwise (fun a b => a.order ≤ b.order) l) : sortRows l = l := by
  induction l with
  | nil => rfl
  | cons x xs ih =>
    unfold sortRows
    rw [ih h.of_cons]
    exact insertByOrder_le x xs (fun y hy => List.rel_of_pairwise_cons h hy)

/-- A stored set whose raw orders are `0..n-1` satisfies the contiguity
invariant as the endpoints read it (sorted by `order`). -/
theorem ordersContiguous_of_raw (s : List PreviewRow)
    (h : s.map PreviewRow.order = List.range s.length) : ordersContiguous s := by
  have hp : List.Pairwise (fun a b => a.order < b.order) s := by
    have := List.pairwise_lt_range s.length
    rw [← h] at this
    exact List.pairwise_map.mp this
  unfold ordersContiguous
  rw [sortRows_eq_self s (hp.imp (fun hab => Nat.le_of_lt hab))]
  exact h

/-- Every store operation leaves the stored rows with strictly increasing
orders. -/
theorem applyStoreOp_pairwise (s : List PreviewRow) (op : StoreOp)
    (h : List.Pairwise (fun a b => a.order < b.order) s) :
    List.Pairwise (fun a b => a.order < b.order) (applyStoreOp s op) := by
  cases op with
  | replace cands oks => exact savedRows_pairwise cands oks 0
  | deleteAt idx =>
    simp only [applyStoreOp, deletePreviewAt]
    split
    · exact h
    · exact renumber_pairwise _

/-- Any operation sequence keeps orders strictly increasing. -/
theorem runStoreOps_pairwise (ops : List StoreOp) :
    List.Pairwise (fun a b => a.order < b.order) (runStoreOps ops) := by
  unfold runStoreOps
  have : ∀ (l : List StoreOp) (s : List PreviewRow),
      List.Pairwise (fun a b => a.order < b.order) s →
      List.Pairwise (fun a b => a.order < b.order) (l.foldl applyStoreOp s) := by
    intro l
    induction l with
    | nil => intro s hs; exact hs
    | cons op l ih =>
      intro s hs
      exact ih (applyStoreOp s op) (applyStoreOp_pairwise s op hs)
  exact this ops [] (by simp)

/-- An operation with all saves succeeding (or any delete) keeps the raw
orders exactly `0..n-1`. -/
theorem applyStoreOp_raw (s : List PreviewRow) (op : StoreOp)
    (hok : opAllSavesOk op)
    (h : s.map PreviewRow.order = List.range s.length) :
    (applyStoreOp s op).map PreviewRow.order
      = List.range (applyStoreOp s op).length := by
  cases op with
  | replace cands oks =>
    have hm := savedRows_allOk cands oks 0 hok
    have hl : (savedRows 0 cands oks).length = cands.length := by
      have := congrArg List.length hm
      simpa using this
    simp only [applyStoreOp, replacePreviews]
    rw [hm, hl, List.range_eq_range']
  | deleteAt idx =>
    simp only [applyStoreOp, deletePreviewAt]
    split
    · exact h
    · rw [renumber_orders, renumber_length]

/-- C1 (amended): for every sequence of preview-store operations the `order`
values are always unique; they are additionally contiguous starting at 0
whenever every individual blob save of every replace in the sequence
succeeded.  (A failed individual save leaves a gap at its enumeration index —
see the counterexample — until a later delete renumbers the set.) -/
theorem C1_orders (ops : List StoreOp) :
    ((runStoreOps ops).map PreviewRow.order).Nodup
    ∧ ((∀ op ∈ ops, opAllSavesOk op) → ordersContiguous (runStoreOps ops)) := by
  constructor
  · have hp := runStoreOps_pairwise ops
    exact List.pairwise_map.mpr (hp.imp (fun hab => Nat.ne_of_lt hab))
  · intro hok
    have : ∀ (l : List StoreOp) (s : List PreviewRow),
        (∀ op ∈ l, opAllSavesOk op) →
        s.map PreviewRow.order = List.range s.length →
        (l.foldl applyStoreOp s).map PreviewRow.order
          = List.range (l.foldl applyStoreOp s).length := by
      intro l
      induction l with
      | nil => intro s _ hs; exact hs
      | cons op l ih =>
        intro s hl hs
        exact ih (applyStoreOp s op) (fun o ho => hl o (by simp [ho]))
          (applyStoreOp_raw s op (hl op (by simp)) hs)
    exact ordersContiguous_of_raw _ (this ops [] hok (by simp [runStoreOps]))

/-- C1 witness: a concrete all-successful replace followed by an in-range
delete yields a unique, contiguous order set. -/
theorem C1_witness :
    ordersContiguous (runStoreOps
      [StoreOp.replace [⟨"a".data, [1], []⟩, ⟨"b".data, [2], []⟩] [],
       StoreOp.deleteAt 0]) :=
  (C1_orders
    [StoreOp.replace [⟨"a".data, [1], []⟩, ⟨"b".data, [2], []⟩] [],
     StoreOp.deleteAt 0]).2 (by decide)

/-- Ordered insertion permutes to consing. -/
theorem insertByOrder_perm (r : PreviewRow) (l : List PreviewRow) :
    List.Perm (insertByOrder r l) (r :: l) := by
  induction l with
  | nil => exact List.Perm.refl _
  | cons x xs ih =>
    unfold insertByOrder
    split
    · exact List.Perm.refl _
    · exact List.Perm.trans (List.Perm.cons x ih) (List.Perm.swap r x xs)

/-- `order_by('order')` is a permutation of the stored rows. -/
theorem sortRows_perm (l : List PreviewRow) : List.Perm (sortRows l) l := by
  induction l with
  | nil => exact List.Perm.refl _
  | cons x xs ih =>
    unfold sortRows
    exact List.Perm.trans (insertByOrder_perm x (sortRows xs)) (List.Perm.cons x ih)

/-- Ordered insertion preserves sortedness by `order`. -/
theorem insertByOrder_pairwise (r : PreviewRow) (l : List PreviewRow)
    (h : List.Pairwise (fun a b => a.order ≤ b.order) l) :
    List.Pairwise (fun a b => a.order ≤ b.order) (insertByOrder r l) := by
  induction l with
  | nil => simp [insertByOrder]
  | cons x xs ih =>
    unfold insertByOrder
    split
    next hle =>
      refine List.Pairwise.cons (fun y hy => ?_) h
      rcases List.mem_cons.mp hy with rfl | hy'
      · exact hle
      · exact Nat.le_trans hle (List.rel_of_pairwise_cons h hy')
    next hgt =>
      have hxr : x.order ≤ r.order := Nat.le_of_not_le hgt
      refine List.Pairwise.cons (fun y hy => ?_) (ih h.of_cons)
      rcases List.mem_cons.mp ((insertByOrder_perm r xs).mem_iff.mp hy) with rfl | h2
      · exact hxr
      · exact List.rel_of_pairwise_cons h h2

/-- `order_by('order')` yields a list sorted by `order`. -/
theorem sortRows_sorted (l : List PreviewRow) :
    List.Pairwise (fun a b => a.order ≤ b.order) (sortRows l) := by
  induction l with
  | nil => simp [sortRows]
  | cons x xs ih => exact insertByOrder_pairwise x (sortRows xs) ih

/-- Behaviour of Python `max(key=len)` folded over the tail: the result is the
first element attaining the maximal payload length; over a tail whose orders
all exceed the accumulator's, equal-length ties resolve to the smaller order. -/
theorem pickBest_fold (xs : List PreviewRow) (acc : PreviewRow)
    (hlt : ∀ y ∈ xs, acc.order < y.order)
    (hp : List.Pairwise (fun a b => a.order < b.order) xs) :
    ∀ b, xs.foldl (fun a y => if a.data.length < y.data.length then y else a) acc = b →
      (b = acc ∨ (b ∈ xs ∧ acc.data.length < b.data.length))
      ∧ ∀ y ∈ xs, y.data.length ≤ b.data.length
          ∧ (y.data.length = b.data.length → b.order ≤ y.order) := by
  induction xs generalizing acc with
  | nil =>
    intro b hb
    exact ⟨Or.inl hb.symm, by simp⟩
  | cons y ys ih =>
    intro b hb
    rw [List.foldl_cons] at hb
    by_cases hcmp : acc.data.length < y.data.length
    · rw [if_pos hcmp] at hb
      have hlt' : ∀ z ∈ ys, y.order < z.order :=
        fun z hz => List.rel_of_pairwise_cons hp hz
      obtain ⟨h1, h2⟩ := ih y hlt' hp.of_cons b hb
      constructor
      · rcases h1 with rfl | ⟨hmem, hlen⟩
        · exact Or.inr ⟨List.mem_cons_self _ _, hcmp⟩
        · exact Or.inr ⟨List.mem_cons_of_mem _ hmem, Nat.lt_trans hcmp hlen⟩
      · intro z hz
        rcases List.mem_cons.mp hz with rfl | hz'
        · rcases h1 with rfl | ⟨_, hlen⟩
          · exact ⟨Nat.le_refl _, fun _ => Nat.le_refl _⟩
          · exact ⟨Nat.le_of_lt hlen, fun he => absurd hlen (by rw [he]; exact Nat.lt_irrefl _)⟩
        · exact h2 z hz'
    · rw [if_neg hcmp] at hb
      have hlt' : ∀ z ∈ ys, acc.order < z.order :=
        fun z hz => hlt z (List.mem_cons_of_mem _ hz)
      obtain ⟨h1, h2⟩ := ih acc hlt' hp.of_cons b hb
      have hacc : acc.data.length ≤ b.data.length := by
        rcases h1 with rfl | ⟨_, hlen⟩
        · exact Nat.le_refl _
        · exact Nat.le_of_lt hlen
      constructor
      · rcases h1 with rfl | ⟨hmem, hlen⟩
        · exact Or.inl rfl
        · exact Or.inr ⟨List.mem_cons_of_mem _ hmem, hlen⟩
      · intro z hz
        rcases List.mem_cons.mp hz with rfl | hz'
        · refine ⟨Nat.le_trans (Nat.le_of_not_lt hcmp) hacc, fun he => ?_⟩
          rcases h1 with rfl | ⟨_, hlen⟩
          · exact Nat.le_of_lt (hlt z (List.mem_cons_self _ _))
          · exact absurd (Nat.lt_of_le_of_lt (Nat.le_of_not_lt hcmp) hlen)
              (by rw [he]; exact Nat.lt_irrefl _)
        · exact h2 z hz'

/-- C8: with at least one stored `PreviewImage` (orders distinct, as the
replace and delete operations guarantee) the best-preview selection returns an
image with the largest byte payload, ties broken by the lowest `order`,
regardless of the stored rows' insertion order; with no rows it falls back to
the legacy single-blob field, and signals NotFound only when that is also
absent (NULL or empty). -/
theorem C8_preview_best (rows : List PreviewRow) (ld : Option (List Nat))
    (lct : List Char) (hnd : (rows.map PreviewRow.order).Nodup) :
    (rows ≠ [] → ∃ b, b ∈ rows
        ∧ preview rows ld lct none
            = PreviewResponse.bytesResp b.data (ctOrDefault b.content_type)
        ∧ (∀ r ∈ rows, r.data.length ≤ b.data.length)
        ∧ (∀ r ∈ rows, r.data.length = b.data.length → b.order ≤ r.order))
    ∧ (∀ d, rows = [] → ld = some d → d ≠ [] →
        preview rows ld lct none = PreviewResponse.bytesResp d (ctOrDefault lct))
    ∧ (rows = [] → (ld = none ∨ ld = some []) →
        preview rows ld lct none = PreviewResponse.notFound) := by
  refine ⟨fun hne => ?_, fun d h0 hld hdne => ?_, fun h0 hab => ?_⟩
  · have hperm := sortRows_perm rows
    have hsorted := sortRows_sorted rows
    have hndp : List.Pairwise (fun a b : PreviewRow => a.order ≠ b.order)
        (sortRows rows) := by
      have : ((sortRows rows).map PreviewRow.order).Nodup :=
        ((hperm.map PreviewRow.order).nodup_iff).mpr hnd
      exact List.pairwise_map.mp this
    have hplt : List.Pairwise (fun a b : PreviewRow => a.order < b.order)
        (sortRows rows) :=
      (hsorted.and hndp).imp (fun hab => Nat.lt_of_le_of_ne hab.1 hab.2)
    cases hs : sortRows rows with
    | nil =>
      exact absurd (List.Perm.eq_nil (hs ▸ hperm).symm) hne
    | cons x xs =>
      rw [hs] at hplt
      obtain ⟨h1, h2⟩ := pickBest_fold xs x
        (fun z hz => List.rel_of_pairwise_cons hplt hz) hplt.of_cons
        (xs.foldl (fun a y => if a.data.length < y.data.length then y else a) x) rfl
      refine ⟨xs.foldl (fun a y => if a.data.length < y.data.length then y else a) x,
        ?_, ?_, ?_, ?_⟩
      · rcases h1 with he | ⟨hmem, _⟩
        · rw [he]
          exact hperm.mem_iff.mp (hs ▸ List.mem_cons_self x xs)
        · exact hperm.mem_iff.mp (hs ▸ List.mem_cons_of_mem x hmem)
      · unfold preview
        rw [hs]
        rfl
      · intro r hr
        have hr' : r ∈ x :: xs := hs ▸ hperm.mem_iff.mpr hr
        rcases List.mem_cons.mp hr' with rfl | hr''
        · rcases h1 with he | ⟨_, hlen⟩
          · rw [he]
          · exact Nat.le_of_lt hlen
        · exact (h2 r hr'').1
      · intro r hr hlen
        have hr' : r ∈ x :: xs := hs ▸ hperm.mem_iff.mpr hr
        rcases List.mem_cons.mp hr' with rfl | hr''
        · rcases h1 with he | ⟨_, hlen'⟩
          · rw [he]
          · exact absurd (hlen ▸ hlen') (Nat.lt_irrefl _)
        · exact (h2 r hr'').2 hlen
  · subst h0 hld
    simp [preview, sortRows, pickBest, hdne]
  · subst h0
    rcases hab with rfl | rfl <;> simp [preview, sortRows, pickBest]

/-- C8 witness: the legacy fallback at a concrete input (no stored rows,
nonempty legacy blob). -/
theorem C8_witness :
    preview [] (some [9]) "image/png".data none
      = PreviewResponse.bytesResp [9] (ctOrDefault "image/png".data) :=
  (C8_preview_best [] (some [9]) "image/png".data (by decide)).2.1
    [9] rfl rfl (by decide)

/-- Effect of one page-loop iteration on a candidate not yet in `seen_urls`:
the candidate is appended to both `seen_urls` and the attempted-fetch record
(whatever the fetch returned). -/
theorem pwPageStep_fresh (env : PwEnv) (cmap : List (List Char × List Nat × List Char))
    (u : List Char) (st : PwLoopState) (i : Nat)
    (h : st.seen.contains (pageCandidate u i) = false) :
    (pwPageStep env cmap u st i).seen = st.seen ++ [pageCandidate u i]
    ∧ (pwPageStep env cmap u st i).attempts.map AttemptRec.url
        = st.attempts.map AttemptRec.url ++ [pageCandidate u i] := by
  simp only [pwPageStep, h, Bool.false_eq_true, if_false]
  cases hr : (pwFetchUrl env cmap (pageCandidate u i)).1 with
  | none => simp [recAttempt, hr]
  | some b =>
    by_cases hb : 10240 ≤ b.length
    · simp [recAttempt, hr, hb]
    · simp [recAttempt, hr, hb]

/-- Folding the page loop over pages `0..n-1` (fresh, pairwise distinct
candidates) attempts exactly the `n` substituted-and-normalized siblings, in
page order. -/
theorem pwPageFold (env : PwEnv) (cmap : List (List Char × List Nat × List Char))
    (u : List Char) (st : PwLoopState) (n : Nat)
    (hfresh : ∀ i, i < n → st.seen.contains (pageCandidate u i) = false)
    (hdist : ∀ i, i < n → ∀ j, j < n → i ≠ j →
        pageCandidate u i ≠ pageCandidate u j) :
    ((List.range n).foldl (pwPageStep env cmap u) st).seen
        = st.seen ++ (List.range n).map (pageCandidate u)
    ∧ ((List.range n).foldl (pwPageStep env cmap u) st).attempts.map AttemptRec.url
        = st.attempts.map AttemptRec.url ++ (List.range n).map (pageCandidate u) := by
  induction n with
  | zero => simp
  | succ n ih =>
    obtain ⟨hseen, hatt⟩ := ih
      (fun i hi => hfresh i (Nat.lt_succ_of_lt hi))
      (fun i hi j hj hij =>
        hdist i (Nat.lt_succ_of_lt hi) j (Nat.lt_succ_of_lt hj) hij)
    rw [List.range_succ, List.foldl_append, List.foldl_cons, List.foldl_nil]
    have hfreshn :
        (((List.range n).foldl (pwPageStep env cmap u) st).seen).contains
          (pageCandidate u n) = false := by
      rw [hseen]
      rw [Bool.eq_false_iff]
      intro hc
      rcases List.mem_append.mp (List.elem_iff.mp hc) with hm | hm
      · have hct : st.seen.contains (pageCandidate u n) = true := List.elem_iff.mpr hm
        rw [hfresh n (Nat.lt_succ_self n)] at hct
        exact Bool.false_ne_true hct
      · obtain ⟨j, hj, he⟩ := List.mem_map.mp hm
        have hjn : j < n := List.mem_range.mp hj
        exact hdist n (Nat.lt_succ_self n) j (Nat.lt_succ_of_lt hjn)
          (fun hnj => Nat.lt_irrefl n (hnj ▸ hjn)) he.symm
    obtain ⟨h1, h2⟩ := pwPageStep_fresh env cmap u _ n hfreshn
    constructor
    · rw [h1, hseen, List.map_append, List.append_assoc]
      rfl
    · rw [h2, hatt, List.map_append, List.append_assoc]
      rfl

/-- C9: for every URL whose path contains a `_p<N>` token (with the eight
page siblings distinct and not yet attempted), the multi-page expansion
attempts exactly the pages `0..MAX_PAGES-1` (`MAX_PAGES = 8`), substituting
each page number into the page token(s), each sibling independently
normalized via `make_pixiv_original_candidate`. -/
theorem C9_page_expansion (env : PwEnv)
    (cmap : List (List Char × List Nat × List Char)) (st : PwLoopState)
    (u : List Char)
    (htok : hasPTok (parseUrl u).path = true)
    (hfresh : ∀ i, i < MAX_PAGES → st.seen.contains (pageCandidate u i) = false)
    (hdist : ∀ i, i < MAX_PAGES → ∀ j, j < MAX_PAGES → i ≠ j →
        pageCandidate u i ≠ pageCandidate u j) :
    (pwProcessCandidate env cmap st u).attempts.map AttemptRec.url
      = st.attempts.map AttemptRec.url
          ++ (List.range MAX_PAGES).map (pageCandidate u) := by
  unfold pwProcessCandidate
  rw [if_pos htok]
  exact (pwPageFold env cmap u st MAX_PAGES hfresh hdist).2

/-- C9 witness: on a concrete `_p0` thumbnail URL the loop attempts exactly
the eight normalized siblings `_p0`..`_p7`. -/
theorem C9_witness :
    (pwProcessCandidate pwEnvTrivial [] ⟨[], [], []⟩ uPixivP0).attempts.map
        AttemptRec.url
      = (List.range MAX_PAGES).map (pageCandidate uPixivP0) := by
  have h := C9_page_expansion pwEnvTrivial [] ⟨[], [], []⟩ uPixivP0
    (by decide) (by decide) (by decide)
  simpa using h

/-- One aggregation step, rewritten from `contains` tests to membership. -/
theorem twStep_eq (col : List (List Char)) (u : List Char) :
    (if u ≠ [] && !col.contains u then col ++ [u] else col)
      = if u = [] then col else (if u ∈ col then col else col ++ [u]) := by
  by_cases hu : u = []
  · simp [hu]
  · by_cases hm : u ∈ col
    · simp [hu, hm, List.elem_iff.mpr hm]
    · have hc : col.contains u = false := by
        rw [Bool.eq_false_iff]
        intro hc
        exact hm (List.elem_iff.mp hc)
      simp [hu, hm, hc]

/-- Unfolding one step of the aggregation loop. -/
theorem twCollect_cons (col : List (List Char)) (u : List Char)
    (us : List (List Char)) :
    twCollect col (u :: us)
      = twCollect (if u ≠ [] && !col.contains u then col ++ [u] else col) us := rfl

/-- `twCollect` only looks at the nonempty URLs and then behaves as plain
keep-first deduplication. -/
theorem twCollect_filter (urls : List (List Char)) : ∀ col : List (List Char),
    twCollect col urls
      = (urls.filter (fun v => v ≠ [])).foldl
          (fun col v => if !col.contains v then col ++ [v] else col) col := by
  induction urls with
  | nil => intro col; rfl
  | cons u us ih =>
    intro col
    rw [twCollect_cons, twStep_eq]
    by_cases hu : u = []
    · subst hu
      simpa using ih col
    · by_cases hm : u ∈ col
      · have hc : col.contains u = true := List.elem_iff.mpr hm
        simpa [hu, hm, hc] using ih col
      · simpa [hu, hm] using ih (col ++ [u])

/-- Aggregating list after list is collecting over the concatenation. -/
theorem twCollect_append (xs ys col : List (List Char)) :
    twCollect (twCollect col xs) ys = twCollect col (xs ++ ys) := by
  unfold twCollect
  rw [List.foldl_append]

/-- The aggregator equals `twCollect` over the flattened backend outputs. -/
theorem fetch_twitter_media_urls_eq_flatten (env : TwEnv) (u : List Char) :
    fetch_twitter_media_urls env u
      = twCollect []
          (((twTryOrder env.method).map
            (fun b => (runTwBackend env u b).1.getD [])).flatten) := by
  unfold fetch_twitter_media_urls
  generalize twTryOrder env.method = bs
  induction bs using List.reverseRecOn with
  | nil => rfl
  | append_singleton bs b ih =>
    rw [List.foldl_append, List.foldl_cons, List.foldl_nil, ih,
      List.map_append, List.flatten_append]
    simp only [List.map_cons, List.map_nil, List.flatten_cons, List.flatten_nil,
      List.append_nil]
    exact (twCollect_append _ _ _)

/-- Keep-first deduplication yields no duplicates. -/
theorem dedupFold_nodup (l : List (List Char)) :
    ∀ col : List (List Char), col.Nodup →
      (l.foldl (fun col v => if !col.contains v then col ++ [v] else col) col).Nodup := by
  induction l with
  | nil => intro col h; exact h
  | cons v vs ih =>
    intro col h
    rw [List.foldl_cons]
    by_cases hc : col.contains v = true
    · simp only [hc, Bool.not_true, Bool.false_eq_true, if_neg, if_false]
      exact ih col h
    · rw [Bool.not_eq_true] at hc
      simp only [hc, Bool.not_false, if_pos]
      refine ih (col ++ [v]) ?_
      rw [List.nodup_append]
      refine ⟨h, List.nodup_singleton v, ?_⟩
      intro x hx hx'
      rw [List.mem_singleton] at hx'
      subst hx'
      have hct : col.contains x = true := List.elem_iff.mpr hx
      rw [hc] at hct
      exact Bool.false_ne_true hct

/-- C10: the unified social-media discovery aggregator never raises, always
returns a list (the alternate-front-end backend's `None` is absorbed by the
`if not urls: continue` guard), and the returned list contains each URL at
most once, ordered by first discovery across the backend try-order: it equals
keep-first deduplication of the concatenated backend outputs. -/
theorem C10_twitter_aggregator (env : TwEnv) (u : List Char) :
    (fetch_twitter_media_urls env u).Nodup
    ∧ fetch_twitter_media_urls env u = dedupKeepFirst (twDiscoveryStream env u) := by
  have he : fetch_twitter_media_urls env u = dedupKeepFirst (twDiscoveryStream env u) := by
    rw [fetch_twitter_media_urls_eq_flatten, twCollect_filter]
    rfl
  refine ⟨?_, he⟩
  rw [he]
  exact dedupFold_nodup _ [] List.nodup_nil

/-- C6 counterexample: the URL normalizer is not idempotent.  On the pixiv
host URL `…/foo_master12_master34.jpg`, one pass removes `_master34` (leaving
`…/foo_master12.jpg`), and a second pass removes the newly exposed
`_master12`. -/
theorem C6_counterexample :
    make_pixiv_original_candidate (make_pixiv_original_candidate
        "https://i.pximg.net/foo_master12_master34.jpg".data)
      ≠ make_pixiv_original_candidate
          "https://i.pximg.net/foo_master12_master34.jpg".data := by decide

/-- With no bearer credential, no backend of the twitter helper issues an API
request. -/
theorem runTwBackend_no_api (env : TwEnv) (u : List Char) (hb : env.bearer = false) :
    ∀ b, NetCall.api ∉ (runTwBackend env u b).2 := by
  intro b
  cases b with
  | api => simp [runTwBackend, fetch_via_api, hb]
  | scrape =>
    by_cases hs : env.scrapeFails <;> simp [runTwBackend, fetch_via_scrape, hs]
  | nitter =>
    simp only [runTwBackend, fetch_via_nitter]
    split
    · simp
    · split <;> simp
  | other name => simp [runTwBackend]

/-- With no bearer credential, the whole twitter-helper trace is API-free. -/
theorem twHelperTrace_no_api (env : TwEnv) (u : List Char)
    (hb : env.bearer = false) : NetCall.api ∉ twHelperTrace env u := by
  unfold twHelperTrace
  generalize twTryOrder env.method = bs
  induction bs using List.reverseRecOn with
  | nil => simp
  | append_singleton bs b ih =>
    rw [List.foldl_append, List.foldl_cons, List.foldl_nil]
    intro hmem
    rcases List.mem_append.mp hmem with h | h
    · exact ih h
    · exact runTwBackend_no_api env u hb b h

/-- One hint iteration either leaves the trace unchanged or appends a single
GET. -/
theorem hintStep_trace (env : HandlerEnv) (target : List Char)
    (st : CollectState) (h : List Char) :
    (hintStep env target st h).trace = st.trace
    ∨ ∃ u, (hintStep env target st h).trace = st.trace ++ [NetCall.get u] := by
  simp only [hintStep]
  split
  · exact Or.inl rfl
  · split
    · exact Or.inl rfl
    · cases hf : internalFetch env (urljoin target h) none with
      | some bc => exact Or.inr ⟨urljoin target h, by simp [hf]⟩
      | none => exact Or.inr ⟨urljoin target h, by simp [hf]⟩

/-- One twitter-merge iteration either leaves the trace unchanged or appends
a single GET. -/
theorem twMergeStep_trace (env : HandlerEnv) (st : CollectState)
    (p : List Char × TwBackend) :
    (twMergeStep env st p).trace = st.trace
    ∨ ∃ u, (twMergeStep env st p).trace = st.trace ++ [NetCall.get u] := by
  simp only [twMergeStep]
  split
  · exact Or.inl rfl
  · split
    · exact Or.inl rfl
    · cases hf : internalFetch env p.1 none with
      | some bc => exact Or.inr ⟨p.1, by simp [hf]⟩
      | none => exact Or.inr ⟨p.1, by simp [hf]⟩

/-- Folding trace-extending steps preserves API-freeness and nonemptiness of
the trace. -/
theorem foldl_trace_pres {α : Type} (f : CollectState → α → CollectState)
    (hf : ∀ st a, (f st a).trace = st.trace
        ∨ ∃ u, (f st a).trace = st.trace ++ [NetCall.get u]) :
    ∀ (l : List α) (st : CollectState),
      (NetCall.api ∉ st.trace → NetCall.api ∉ (l.foldl f st).trace)
      ∧ (st.trace ≠ [] → (l.foldl f st).trace ≠ []) := by
  intro l
  induction l with
  | nil => intro st; exact ⟨fun h => h, fun h => h⟩
  | cons a as ih =>
    intro st
    rw [List.foldl_cons]
    refine ⟨fun hapi => ?_, fun hne => ?_⟩
    · refine (ih (f st a)).1 ?_
      rcases hf st a with he | ⟨u, he⟩
      · rw [he]; exact hapi
      · rw [he]
        intro hmem
        rcases List.mem_append.mp hmem with h1 | h1
        · exact hapi h1
        · simp at h1
    · refine (ih (f st a)).2 ?_
      rcases hf st a with he | ⟨u, he⟩
      · rw [he]; exact hne
      · rw [he]
        intro hx
        exact hne (List.append_eq_nil.mp hx).1

/-- The HTML phase performs at least one network call and, with no bearer
credential, no API call. -/
theorem htmlPhase_trace (env : HandlerEnv) (target : List Char)
    (hb : env.tw.bearer = false) :
    NetCall.api ∉ (htmlPhase env target).trace
    ∧ (htmlPhase env target).trace ≠ [] := by
  unfold htmlPhase
  have h0 : NetCall.api ∉ ([NetCall.get target] : List NetCall) := by simp
  have h0' : ([NetCall.get target] : List NetCall) ≠ [] := by simp
  have hh := foldl_trace_pres (hintStep env target) (hintStep_trace env target)
    env.hints ⟨[], [], [NetCall.get target]⟩
  split
  · set st1 := env.hints.foldl (hintStep env target) ⟨[], [], [NetCall.get target]⟩
    have h1 : NetCall.api ∉ st1.trace := hh.1 h0
    have h1' : st1.trace ≠ [] := hh.2 h0'
    have h2 : NetCall.api ∉ st1.trace ++ twHelperTrace env.tw target := by
      intro hmem
      rcases List.mem_append.mp hmem with h | h
      · exact h1 h
      · exact twHelperTrace_no_api env.tw target hb h
    have h2' : st1.trace ++ twHelperTrace env.tw target ≠ [] := by
      intro hx
      exact h1' (List.append_eq_nil.mp hx).1
    have hm := foldl_trace_pres (twMergeStep env) (twMergeStep_trace env)
      (fetch_twitter_media_urls_with_sources env.tw target)
      { st1 with trace := st1.trace ++ twHelperTrace env.tw target }
    exact ⟨hm.1 h2, hm.2 h2'⟩
  · exact ⟨hh.1 h0, hh.2 h0'⟩

/-- C3 counterexample: with a twitter target, `force_method='api'` and no
bearer credential, the handler does return the distinct 422 missing-credential
outcome — but only after performing four network requests (direct fetch, HTML
fetch, scrape GET, nitter GET), refuting "performs zero network calls before
returning it". -/
theorem C3_counterexample :
    (collectCandidates envApiNoBearer uTweet (some "api".data)).1
        = CollectOutcome.missingBearer
    ∧ (collectCandidates envApiNoBearer uTweet (some "api".data)).2.length = 4 := by
  decide

/-- C3 (amended): when API mode is forced on a twitter/x target with no
bearer credential configured and the target URL does not itself serve an
image, the handler returns the distinct 422 missing-credential outcome; no
credentialed API request is ever issued (the API backend exits before any
network when the bearer is missing), but the direct-fetch and HTML-scrape
phases have already performed at least one network call by then. -/
theorem C3_missing_bearer (env : HandlerEnv) (target : List Char)
    (htw : isTwitterTarget target = true)
    (hb : env.tw.bearer = false)
    (hd : internalFetch env target none = none) :
    (collectCandidates env target (some "api".data)).1 = CollectOutcome.missingBearer
    ∧ NetCall.api ∉ (collectCandidates env target (some "api".data)).2
    ∧ (collectCandidates env target (some "api".data)).2 ≠ [] := by
  obtain ⟨hta, htn⟩ := htmlPhase_trace env target hb
  have hbr : apiBranch env target (htmlPhase env target)
      = (Except.error CollectOutcome.missingBearer, []) := by
    unfold apiBranch
    rw [hb]
    rfl
  simp only [collectCandidates, hd, htw, hbr]
  refine ⟨by simp, ?_, by simp⟩
  intro hmem
  have hmem' : NetCall.api = NetCall.get target
      ∨ NetCall.api ∈ (htmlPhase env target).trace := by
    simpa using hmem
  rcases hmem' with h | h
  · exact NetCall.noConfusion h
  · exact hta h

/-- C3 witness: the amended statement applied at the concrete
no-bearer environment. -/
theorem C3_witness :
    (collectCandidates envApiNoBearer uTweet (some "api".data)).1
        = CollectOutcome.missingBearer
    ∧ NetCall.api ∉ (collectCandidates envApiNoBearer uTweet (some "api".data)).2 := by
  have h := C3_missing_bearer envApiNoBearer uTweet (by decide) (by decide) (by decide)
  exact ⟨h.1, h.2.1⟩

/-- A negative `contains` test means non-membership. -/
theorem contains_eq_false_not_mem {l : List (List Char)} {a : List Char}
    (hc : l.contains a = false) : a ∉ l := by
  intro hm
  have hct : l.contains a = true := List.elem_iff.mpr hm
  rw [hc] at hct
  exact Bool.false_ne_true hct

/-- The hint loop preserves the collection invariant: candidate URLs are
unique and all recorded in `seen`. -/
theorem hintStep_inv (env : HandlerEnv) (target : List Char) (st : CollectState)
    (h : List Char)
    (hi : (st.cands.map Cand.url).Nodup ∧ ∀ c ∈ st.cands, c.url ∈ st.seen) :
    ((hintStep env target st h).cands.map Cand.url).Nodup
    ∧ ∀ c ∈ (hintStep env target st h).cands,
        c.url ∈ (hintStep env target st h).seen := by
  obtain ⟨h1, h2⟩ := hi
  simp only [hintStep]
  split
  · exact ⟨h1, h2⟩
  · split
    next hc => exact ⟨h1, h2⟩
    next hc =>
      have hnm : urljoin target h ∉ st.seen :=
        contains_eq_false_not_mem (Bool.not_eq_true _ ▸ Bool.of_not_eq_true hc)
      cases hf : internalFetch env (urljoin target h) none with
      | some bc =>
        constructor
        · rw [List.map_append, List.nodup_append]
          refine ⟨h1, by simp, ?_⟩
          intro x hx hx'
          simp only [List.map_cons, List.map_nil, List.mem_singleton] at hx'
          subst hx'
          obtain ⟨c, hcm, hcu⟩ := List.mem_map.mp hx
          exact hnm (hcu ▸ h2 c hcm)
        · intro c hcm
          rcases List.mem_append.mp hcm with hm | hm
          · exact List.mem_append_left _ (h2 c hm)
          · rw [List.mem_singleton] at hm
            subst hm
            exact List.mem_append_right _ (by simp)
      | none =>
        exact ⟨h1, fun c hcm => List.mem_append_left _ (h2 c hcm)⟩

/-- The twitter-merge loop preserves the collection invariant. -/
theorem twMergeStep_inv (env : HandlerEnv) (st : CollectState)
    (p : List Char × TwBackend)
    (hi : (st.cands.map Cand.url).Nodup ∧ ∀ c ∈ st.cands, c.url ∈ st.seen) :
    ((twMergeStep env st p).cands.map Cand.url).Nodup
    ∧ ∀ c ∈ (twMergeStep env st p).cands, c.url ∈ (twMergeStep env st p).seen := by
  obtain ⟨h1, h2⟩ := hi
  simp only [twMergeStep]
  split
  · exact ⟨h1, h2⟩
  · split
    next hc => exact ⟨h1, h2⟩
    next hc =>
      have hnm : p.1 ∉ st.seen :=
        contains_eq_false_not_mem (Bool.not_eq_true _ ▸ Bool.of_not_eq_true hc)
      cases hf : internalFetch env p.1 none with
      | some bc =>
        constructor
        · rw [List.map_append, List.nodup_append]
          refine ⟨h1, by simp, ?_⟩
          intro x hx hx'
          simp only [List.map_cons, List.map_nil, List.mem_singleton] at hx'
          subst hx'
          obtain ⟨c, hcm, hcu⟩ := List.mem_map.mp hx
          exact hnm (hcu ▸ h2 c hcm)
        · intro c hcm
          rcases List.mem_append.mp hcm with hm | hm
          · exact List.mem_append_left _ (h2 c hm)
          · rw [List.mem_singleton] at hm
            subst hm
            exact List.mem_append_right _ (by simp)
      | none =>
        exact ⟨h1, h2⟩

/-- Folding invariant-preserving steps preserves the collection invariant. -/
theorem foldl_collect_inv {α : Type} (f : CollectState → α → CollectState)
    (hf : ∀ st a,
        ((st.cands.map Cand.url).Nodup ∧ ∀ c ∈ st.cands, c.url ∈ st.seen) →
        (((f st a).cands.map Cand.url).Nodup
          ∧ ∀ c ∈ (f st a).cands, c.url ∈ (f st a).seen)) :
    ∀ (l : List α) (st : CollectState),
      ((st.cands.map Cand.url).Nodup ∧ ∀ c ∈ st.cands, c.url ∈ st.seen) →
      (((l.foldl f st).cands.map Cand.url).Nodup
        ∧ ∀ c ∈ (l.foldl f st).cands, c.url ∈ (l.foldl f st).seen) := by
  intro l
  induction l with
  | nil => intro st hi; exact hi
  | cons a as ih =>
    intro st hi
    rw [List.foldl_cons]
    exact ih (f st a) (hf st a hi)

/-- The HTML phase produces candidates with pairwise-distinct URLs: the hint
loop and the twitter-helper merge loop share the `seen` set. -/
theorem htmlPhase_nodup (env : HandlerEnv) (target : List Char) :
    ((htmlPhase env target).cands.map Cand.url).Nodup := by
  unfold htmlPhase
  have h0 : (([] : List Cand).map Cand.url).Nodup ∧
      ∀ c ∈ ([] : List Cand), c.url ∈ ([] : List (List Char)) := by simp
  have hh := foldl_collect_inv (hintStep env target) (hintStep_inv env target)
    env.hints ⟨[], [], [NetCall.get target]⟩ h0
  split
  · set st1 := env.hints.foldl (hintStep env target) ⟨[], [], [NetCall.get target]⟩
    have hh2 : ((st1.cands.map Cand.url).Nodup
        ∧ ∀ c ∈ st1.cands, c.url ∈ st1.seen) := hh
    have hh3 : (({ st1 with trace := st1.trace ++ twHelperTrace env.tw target
        : CollectState}.cands.map Cand.url).Nodup
        ∧ ∀ c ∈ ({ st1 with trace := st1.trace ++ twHelperTrace env.tw target
            : CollectState}).cands,
          c.url ∈ ({ st1 with trace := st1.trace ++ twHelperTrace env.tw target
            : CollectState}).seen) := hh2
    exact (foldl_collect_inv (twMergeStep env) (twMergeStep_inv env)
      (fetch_twitter_media_urls_with_sources env.tw target) _ hh3).1
  · exact hh.1

/-- The API fetch loop keeps exactly the successfully fetched URLs, in
order. -/
theorem apiFetchLoop_map (env : HandlerEnv) (urls : List (List Char)) :
    (apiFetchLoop env urls).1.map Cand.url
      = urls.filter (fun u => (internalFetch env u none).isSome) := by
  suffices h : ∀ (urls : List (List Char)) (acc : List Cand) (tr : List NetCall),
      ((urls.foldl
        (fun acc u =>
          match internalFetch env u none with
          | some bc => (acc.1 ++ [⟨u, bc.1, bc.2⟩], acc.2 ++ [NetCall.get u])
          | none => (acc.1, acc.2 ++ [NetCall.get u]))
        (acc, tr)).1).map Cand.url
        = acc.map Cand.url ++ urls.filter (fun u => (internalFetch env u none).isSome) by
    simpa [apiFetchLoop] using h urls [] []
  intro urls
  induction urls with
  | nil => intro acc tr; simp
  | cons u us ih =>
    intro acc tr
    rw [List.foldl_cons, List.filter_cons]
    cases hf : internalFetch env u none with
    | some bc =>
      simp only [hf, Option.isSome_some, if_pos]
      rw [ih]
      simp
    | none =>
      simp only [hf, Option.isSome_none, Bool.false_eq_true, if_false]
      rw [ih]

/-- The sourced twitter helper returns pairwise-distinct URLs (its own `seen`
set). -/
theorem twws_urls_nodup (env : TwEnv) (u : List Char) :
    ((fetch_twitter_media_urls_with_sources env u).map Prod.fst).Nodup := by
  unfold fetch_twitter_media_urls_with_sources
  have inner : ∀ (b : TwBackend) (urls : List (List Char))
      (acc : List (List Char × TwBackend) × List (List Char)),
      (acc.1.map Prod.fst = acc.2 ∧ acc.2.Nodup) →
      (((urls.foldl
          (fun a v =>
            if v ≠ [] && !a.2.contains v then (a.1 ++ [(v, b)], a.2 ++ [v]) else a)
          acc).1.map Prod.fst
        = (urls.foldl
          (fun a v =>
            if v ≠ [] && !a.2.contains v then (a.1 ++ [(v, b)], a.2 ++ [v]) else a)
          acc).2)
        ∧ (urls.foldl
          (fun a v =>
            if v ≠ [] && !a.2.contains v then (a.1 ++ [(v, b)], a.2 ++ [v]) else a)
          acc).2.Nodup) := by
    intro b urls
    induction urls with
    | nil => intro acc hi; exact hi
    | cons v vs ih =>
      intro acc hi
      rw [List.foldl_cons]
      refine ih _ ?_
      split
      next hcond =>
        have hc : acc.2.contains v = false := by
          rw [Bool.and_eq_true] at hcond
          have hnc := hcond.2
          rw [Bool.not_eq_true'] at hnc
          exact hnc
        constructor
        · rw [List.map_append, hi.1]
          rfl
        · rw [List.nodup_append]
          refine ⟨hi.2, List.nodup_singleton v, ?_⟩
          intro x hx hx'
          rw [List.mem_singleton] at hx'
          subst hx'
          exact contains_eq_false_not_mem hc hx
      next => exact hi
  have outer : ∀ (bs : List TwBackend)
      (acc : List (List Char × TwBackend) × List (List Char)),
      (acc.1.map Prod.fst = acc.2 ∧ acc.2.Nodup) →
      ((bs.foldl
        (fun acc b =>
          ((runTwBackend env u b).1.getD []).foldl
            (fun a v =>
              if v ≠ [] && !a.2.contains v then (a.1 ++ [(v, b)], a.2 ++ [v]) else a)
            acc)
        acc).1.map Prod.fst
        = (bs.foldl
          (fun acc b =>
            ((runTwBackend env u b).1.getD []).foldl
              (fun a v =>
                if v ≠ [] && !a.2.contains v then (a.1 ++ [(v, b)], a.2 ++ [v]) else a)
              acc)
          acc).2)
      ∧ (bs.foldl
          (fun acc b =>
            ((runTwBackend env u b).1.getD []).foldl
              (fun a v =>
                if v ≠ [] && !a.2.contains v then (a.1 ++ [(v, b)], a.2 ++ [v]) else a)
              acc)
          acc).2.Nodup := by
    intro bs
    induction bs with
    | nil => intro acc hi; exact hi
    | cons b bs ih =>
      intro acc hi
      rw [List.foldl_cons]
      exact ih _ (inner b _ acc hi)
  have h := outer (twTryOrder env.method) ([], []) (by simp)
  rw [h.1]
  exact h.2

/-- The forced-playwright size filter is the identity for every other mode. -/
theorem playwrightSizeFilter_id (force : Option (List Char)) (cands : List Cand)
    (hf : force ≠ some "playwright".data) :
    playwrightSizeFilter force cands = cands := by
  unfold playwrightSizeFilter
  rw [if_neg hf]

/-- Every successful outcome of the forced-API branch has pairwise-distinct
candidate URLs (API candidates come deduplicated from the sourced helper; the
fallback is the already-deduplicated HTML candidate set). -/
theorem apiBranch_nodup (env : HandlerEnv) (target : List Char)
    (st : CollectState) (hst : (st.cands.map Cand.url).Nodup) :
    ∀ cands, (apiBranch env target st).1 = Except.ok cands →
      (cands.map Cand.url).Nodup := by
  intro cands h
  have hapi : ((apiFetchLoop env
      (((fetch_twitter_media_urls_with_sources env.tw target).filter
        (fun p => p.2 = TwBackend.api)).map Prod.fst)).1.map Cand.url).Nodup := by
    rw [apiFetchLoop_map]
    refine List.Sublist.nodup (List.filter_sublist _) ?_
    refine List.Sublist.nodup (List.Sublist.map Prod.fst (List.filter_sublist _)) ?_
    exact twws_urls_nodup env.tw target
  have hfb : ((apiFetchLoop env
      (((fetch_twitter_media_urls_with_sources env.tw target).filter
        (fun p => p.2 ≠ TwBackend.api)).map Prod.fst)).1.map Cand.url).Nodup := by
    rw [apiFetchLoop_map]
    refine List.Sublist.nodup (List.filter_sublist _) ?_
    refine List.Sublist.nodup (List.Sublist.map Prod.fst (List.filter_sublist _)) ?_
    exact twws_urls_nodup env.tw target
  simp only [apiBranch] at h
  split at h
  · simp at h
  · split at h
    · injection h with h2
      subst h2
      exact hapi
    · split at h
      · split at h
        · injection h with h2
          subst h2
          exact hfb
        · split at h
          · injection h with h2
            subst h2
            exact hst
          · simp at h
      · split at h
        · injection h with h2
          subst h2
          exact hst
        · simp at h

/-- The forced-API branch signals only credential or no-media errors. -/
theorem apiBranch_error (env : HandlerEnv) (target : List Char)
    (st : CollectState) :
    ∀ out, (apiBranch env target st).1 = Except.error out →
      out = CollectOutcome.missingBearer ∨ out = CollectOutcome.apiNoMedia := by
  intro out h
  simp only [apiBranch] at h
  split at h
  · injection h with h2
    exact Or.inl h2.symm
  · split at h
    · simp at h
    · split at h
      · split at h
        · simp at h
        · split at h
          · simp at h
          · injection h with h2
            exact Or.inr h2.symm
      · split at h
        · simp at h
        · injection h with h2
          exact Or.inr h2.symm

/-- C4 (amended): candidate deduplication by resolved URL holds across the
direct, HTML-scrape, twitter-helper and forced-API paths, which share
the `seen` set (or inherit the helper's own deduplication): in every mode
other than forced playwright, a `ready` outcome carries pairwise-distinct
candidate URLs.  The playwright paths do not consult the `seen` set, so a URL
discovered both by the HTML phase and by the rendered session appears twice
(see the counterexample). -/
theorem C4_dedup (env : HandlerEnv) (target : List Char) (force : Option (List Char))
    (hf : force ≠ some "playwright".data) :
    ∀ cands, (collectCandidates env target force).1 = CollectOutcome.ready cands →
      (cands.map Cand.url).Nodup := by
  intro cands h
  simp only [collectCandidates] at h
  cases hd : internalFetch env target none with
  | some bc =>
    simp only [hd] at h
    injection h with h2
    subst h2
    simp
  | none =>
    simp only [hd] at h
    by_cases hc1 : (decide (force = some "api".data) && isTwitterTarget target) = true
    · rw [if_pos hc1] at h
      cases hab : (apiBranch env target (htmlPhase env target)).1 with
      | error out =>
        simp only [hab] at h
        rcases apiBranch_error env target (htmlPhase env target) out hab with h1 | h1 <;>
          (rw [h1] at h; exact CollectOutcome.noConfusion h)
      | ok cands' =>
        simp only [hab] at h
        split at h
        · simp at h
        · injection h with h2
          rw [playwrightSizeFilter_id force cands' hf] at h2
          subst h2
          exact apiBranch_nodup env target (htmlPhase env target)
            (htmlPhase_nodup env target) cands' hab
    · rw [if_neg hc1, if_neg hf] at h
      simp only [] at h
      split at h
      · simp at h
      · injection h with h2
        rw [playwrightSizeFilter_id force _ hf] at h2
        subst h2
        exact htmlPhase_nodup env target

/-- With any 10 KB payload behind the hint URL, the playwright mode collects
the same URL twice: once from the HTML hint phase and once from the rendered
session. -/
theorem envC4p_duplicate (body : List Nat) (hlen : body.length = 10240) :
    (collectCandidates (envC4p body) uGallery (some "playwright".data)).1
      = CollectOutcome.ready
          [⟨uHintC4, body, "image/jpeg".data⟩, ⟨uHintC4, body, "image/jpeg".data⟩] := by
  have h3 : internalFetch (envC4p body) uHintC4 (some 10240)
      = some (body, "image/jpeg".data) :=
    (C7_fetch_min_size ⟨200, "image/jpeg".data, body⟩ 10240 rfl
      (by show ("image".data).isPrefixOf (splitSemi1 "image/jpeg".data) = true; decide)
      (by show List.map Char.toLower (splitSemi1 "image/jpeg".data) ≠ "image/svg+xml".data
          decide)).2.1 hlen
  have hh : htmlPhase (envC4p body) uGallery
      = ⟨[⟨uHintC4, body, "image/jpeg".data⟩], [uHintC4],
         [NetCall.get uGallery, NetCall.get uHintC4]⟩ := rfl
  have hpw : (envC4p body).renderedResult = some [uHintC4] := rfl
  have hpb : playwrightBranch (envC4p body) uGallery
      [⟨uHintC4, body, "image/jpeg".data⟩]
      = (Except.ok
          [⟨uHintC4, body, "image/jpeg".data⟩, ⟨uHintC4, body, "image/jpeg".data⟩],
         [NetCall.render, NetCall.get uHintC4]) := by
    simp only [playwrightBranch, hpw, renderedFetchLoop, List.foldl_cons,
      List.foldl_nil, h3]
    rfl
  have hsf : playwrightSizeFilter (some "playwright".data)
      [⟨uHintC4, body, "image/jpeg".data⟩, ⟨uHintC4, body, "image/jpeg".data⟩]
      = [⟨uHintC4, body, "image/jpeg".data⟩, ⟨uHintC4, body, "image/jpeg".data⟩] := by
    simp [playwrightSizeFilter, hlen]
  have hdirect : internalFetch (envC4p body) uGallery none = none := rfl
  have hforce1 : (decide ((some "playwright".data : Option (List Char)) = some "api".data)
      && isTwitterTarget uGallery) = false := by decide
  simp only [collectCandidates, hdirect, hh, hforce1, Bool.false_eq_true, if_false, hpb]
  rw [if_pos trivial]
  simp [hsf]

/-- C4 counterexample: with `force_method='playwright'`, a URL discovered by
the HTML hint phase and again by the rendered session appears twice in the
final merged candidate sequence — the playwright fetch loop does not consult
the `seen` set. -/
theorem C4_counterexample :
    (collectCandidates envC4 uGallery (some "playwright".data)).1
        = CollectOutcome.ready
            [⟨uHintC4, bigBody, "image/jpeg".data⟩,
             ⟨uHintC4, bigBody, "image/jpeg".data⟩]
    ∧ ¬ ((([⟨uHintC4, bigBody, "image/jpeg".data⟩,
            ⟨uHintC4, bigBody, "image/jpeg".data⟩] : List Cand).map Cand.url).Nodup) := by
  constructor
  · refine envC4p_duplicate bigBody ?_
    rw [show bigBody = List.replicate 10240 0 from rfl, List.length_replicate]
  · simp

/-- C4 witness: the amended statement applied at a concrete environment whose
direct fetch succeeds. -/
theorem C4_witness :
    (([⟨uGallery, [1, 2, 3], "image/png".data⟩] : List Cand).map Cand.url).Nodup :=
  C4_dedup envDirect uGallery none (by decide)
    [⟨uGallery, [1, 2, 3], "image/png".data⟩] (by decide)

/-- `containsSub` is the infix relation in Bool form. -/
theorem containsSub_isInfix (pat l : List Char) :
    containsSub pat l = true ↔ pat <:+: l := by
  induction l with
  | nil =>
    simp only [containsSub, List.isEmpty_iff, List.infix_nil]
  | cons c cs ih =>
    simp only [containsSub, Bool.or_eq_true, ih, List.isPrefixOf_iff_prefix]
    exact ( List.infix_cons_iff).symm

/-- A substring of an occurring pattern occurs as well. -/
theorem containsSub_mono {q pat l : List Char} (hqp : q <:+: pat)
    (h : containsSub pat l = true) : containsSub q l = true :=
  (containsSub_isInfix q l).mpr (hqp.trans ((containsSub_isInfix pat l).mp h))

/-- Decomposition of a negative substring test at a cons. -/
theorem containsSub_cons_elim {pat : List Char} {c : Char} {cs : List Char}
    (h : containsSub pat (c :: cs) = false) :
    pat.isPrefixOf (c :: cs) = false ∧ containsSub pat cs = false := by
  rw [show containsSub pat (c :: cs)
      = (pat.isPrefixOf (c :: cs) || containsSub pat cs) from rfl] at h
  exact Bool.or_eq_false_iff.mp h

/-- A pattern that does not occur is in particular not a prefix. -/
theorem not_isPrefixOf_of_not_contains {pat l : List Char}
    (h : containsSub pat l = false) : pat.isPrefixOf l = false := by
  cases l with
  | nil =>
    rw [Bool.eq_false_iff]
    intro hp
    have : containsSub pat [] = true := by
      have hp' := List.isPrefixOf_iff_prefix.mp hp
      exact (containsSub_isInfix pat []).mpr hp'.isInfix
    rw [h] at this
    exact Bool.false_ne_true this
  | cons c cs => exact (containsSub_cons_elim h).1

/-- `takeDigits` splits the list. -/
theorem takeDigits_append (l : List Char) :
    (takeDigits l).1 ++ (takeDigits l).2 = l := by
  induction l with
  | nil => rfl
  | cons c cs ih =>
    unfold takeDigits
    split
    · simpa using ih
    · rfl

/-- The remainder of `takeDigits` is a suffix. -/
theorem takeDigits_suffix (l : List Char) : (takeDigits l).2 <:+ l := by
  conv_rhs => rw [← takeDigits_append l]
  exact List.suffix_append _ _

/-- With no `_master` occurrence, the `_master\d+(?=\.)` matcher fails. -/
theorem matchMasterDot_eq_none {l : List Char}
    (h : containsSub "_master".data l = false) : matchMasterDot l = none := by
  unfold matchMasterDot
  rw [not_isPrefixOf_of_not_contains h]
  rfl

/-- With no `_master` occurrence, the `(_p\d+)_master\d+` matcher fails. -/
theorem matchPMaster_eq_none {l : List Char}
    (h : containsSub "_master".data l = false) : matchPMaster l = none := by
  unfold matchPMaster
  split
  · dsimp only
    split
    · rfl
    · rw [if_neg ?hm]
      case hm =>
        intro hp
        have hinf : ("_master".data : List Char) <:+: l := by
          have h1 : ("_master".data : List Char) <+: (takeDigits (l.drop 2)).2 :=
            List.isPrefixOf_iff_prefix.mp hp
          have h2 : (takeDigits (l.drop 2)).2 <:+ l :=
            (takeDigits_suffix (l.drop 2)).trans (List.drop_suffix 2 l)
          exact h1.isInfix.trans h2.isInfix
        have : containsSub "_master".data l = true :=
          (containsSub_isInfix _ _).mpr hinf
        rw [h] at this
        exact Bool.false_ne_true this
  · rfl

/-- With no `img-master` occurrence, the crop-directory matcher fails. -/
theorem matchCropDir_eq_none {l : List Char}
    (h : containsSub "img-master".data l = false) : matchCropDir l = none := by
  unfold matchCropDir
  split
  · dsimp only
    split
    · rfl
    · split
      · split
        · rfl
        · rw [if_neg ?hm]
          case hm =>
            intro hp
            have hs1 : (takeDigits ((takeDigits (l.drop 3)).2.drop 1)).2 <:+ l := by
              refine (takeDigits_suffix _).trans ?_
              refine (List.drop_suffix 1 _).trans ?_
              exact (takeDigits_suffix (l.drop 3)).trans (List.drop_suffix 3 l)
            have hinf : ("img-master".data : List Char) <:+: l := by
              have h1 : ("/img-master".data : List Char)
                  <+: (takeDigits ((takeDigits (l.drop 3)).2.drop 1)).2 :=
                List.isPrefixOf_iff_prefix.mp hp
              have h2 : ("img-master".data : List Char) <:+: "/img-master".data :=
                ⟨['/'], [], rfl⟩
              exact h2.trans (h1.isInfix.trans hs1.isInfix)
            have : containsSub "img-master".data l = true :=
              (containsSub_isInfix _ _).mpr hinf
            rw [h] at this
            exact Bool.false_ne_true this
      · rfl
  · rfl

/-- With no `img-master` occurrence, crop-prefix stripping is the identity. -/
theorem stripCropDir_id {l : List Char}
    (h : containsSub "img-master".data l = false) : stripCropDir l = l := by
  unfold stripCropDir
  rw [matchCropDir_eq_none h]

/-- With no occurrence of the pattern, `replaceAll` is the identity. -/
theorem replaceAll_id (pat rep : List Char) :
    ∀ l, containsSub pat l = false → replaceAll pat rep l = l := by
  have haux : ∀ (fuel : Nat) (l : List Char), containsSub pat l = false →
      replaceAllAux pat rep fuel l = l := by
    intro fuel
    induction fuel with
    | zero => intro l _; cases l <;> rfl
    | succ fuel ih =>
      intro l hl
      cases l with
      | nil => rfl
      | cons c cs =>
        obtain ⟨h1, h2⟩ := containsSub_cons_elim hl
        show (if pat ≠ [] && pat.isPrefixOf (c :: cs) then _ else
          c :: replaceAllAux pat rep fuel cs) = c :: cs
        rw [h1]
        simp only [Bool.and_false, Bool.false_eq_true, if_false]
        rw [ih cs h2]
  intro l hl
  exact haux l.length l hl

/-- With no `_master` occurrence, the `_master<N>.`-stripping pass is the
identity. -/
theorem subMasterDot_id {l : List Char}
    (h : containsSub "_master".data l = false) : subMasterDot l = l := by
  have haux : ∀ (fuel : Nat) (l : List Char),
      containsSub "_master".data l = false → subMasterDotAux fuel l = l := by
    intro fuel
    induction fuel with
    | zero => intro l _; cases l <;> rfl
    | succ fuel ih =>
      intro l hl
      cases l with
      | nil => rfl
      | cons c cs =>
        obtain ⟨_, h2⟩ := containsSub_cons_elim hl
        show (match matchMasterDot (c :: cs) with
          | some r => subMasterDotAux fuel r
          | none => c :: subMasterDotAux fuel cs) = c :: cs
        rw [matchMasterDot_eq_none hl]
        rw [ih cs h2]
  exact haux l.length l h

/-- With no `_master` occurrence, the `_pN_masterM`-collapsing pass is the
identity. -/
theorem subPMaster_id {l : List Char}
    (h : containsSub "_master".data l = false) : subPMaster l = l := by
  have haux : ∀ (fuel : Nat) (l : List Char),
      containsSub "_master".data l = false → subPMasterAux fuel l = l := by
    intro fuel
    induction fuel with
    | zero => intro l _; cases l <;> rfl
    | succ fuel ih =>
      intro l hl
      cases l with
      | nil => rfl
      | cons c cs =>
        obtain ⟨_, h2⟩ := containsSub_cons_elim hl
        show (match matchPMaster (c :: cs) with
          | some p => p.1 ++ subPMasterAux fuel p.2
          | none => c :: subPMasterAux fuel cs) = c :: cs
        rw [matchPMaster_eq_none hl]
        rw [ih cs h2]
  exact haux l.length l h

/-- Replacing the first occurrence makes the replacement occur. -/
theorem replaceFirst_contains (pat rep : List Char) (hne : pat ≠ []) :
    ∀ l, containsSub pat l = true →
      containsSub rep (replaceFirst pat rep l) = true := by
  intro l
  induction l with
  | nil =>
    intro hq
    rw [show containsSub pat ([] : List Char) = pat.isEmpty from rfl,
      List.isEmpty_iff] at hq
    exact absurd hq hne
  | cons c cs ih =>
    intro hq
    show containsSub rep
      (if pat ≠ [] && pat.isPrefixOf (c :: cs) then rep ++ List.drop pat.length (c :: cs)
        else c :: replaceFirst pat rep cs) = true
    by_cases hp : pat.isPrefixOf (c :: cs) = true
    · rw [hp, Bool.and_true, decide_eq_true hne, if_pos rfl]
      exact (containsSub_isInfix _ _).mpr (List.prefix_append rep _).isInfix
    · have hp' : pat.isPrefixOf (c :: cs) = false := Bool.of_not_eq_true hp
      rw [hp']
      simp only [Bool.and_false, Bool.false_eq_true, if_false]
      have hq' : containsSub pat cs = true := by
        rw [show containsSub pat (c :: cs)
            = (pat.isPrefixOf (c :: cs) || containsSub pat cs) from rfl, hp'] at hq
        simpa using hq
      have := ih hq'
      rw [show containsSub rep (c :: replaceFirst pat rep cs)
          = (rep.isPrefixOf (c :: replaceFirst pat rep cs)
            || containsSub rep (replaceFirst pat rep cs)) from rfl, this]
      simp

/-- Invariant of the path pipeline's last step: whenever the rewritten path
contains `/img-original/`, it also contains `/img-original/img/`. -/
theorem normalizePixivPath_io (p : List Char)
    (h : containsSub "/img-original/".data (normalizePixivPath p) = true) :
    containsSub "/img-original/img/".data (normalizePixivPath p) = true := by
  unfold normalizePixivPath at h ⊢
  dsimp only at h ⊢
  split at h
  next hcond =>
    rw [if_pos hcond]
    have hcond' := hcond
    rw [Bool.and_eq_true] at hcond'
    exact replaceFirst_contains "/img-original/".data "/img-original/img/".data
      (by decide) _ hcond'.1
  next hcond =>
    rw [if_neg hcond]
    by_cases hioi : containsSub "/img-original/img/".data
        (subPMaster (subMasterDot
          (replaceAll "/img-master/".data "/img-original/".data (stripCropDir p))))
        = true
    · exact hioi
    · exfalso
      refine hcond ?_
      rw [Bool.and_eq_true]
      refine ⟨h, ?_⟩
      rw [Bool.not_eq_true']
      exact Bool.of_not_eq_true hioi

/-- `splitFirst` decomposes its input. -/
theorem splitFirst_eq (sep : List Char) :
    ∀ l a b, splitFirst sep l = some (a, b) → l = a ++ sep ++ b := by
  intro l
  induction l with
  | nil =>
    intro a b h
    unfold splitFirst at h
    split at h
    next hse =>
      cases h
      rw [List.isEmpty_iff] at hse
      rw [hse]
      rfl
    next => exact Option.noConfusion h
  | cons c cs ih =>
    intro a b h
    unfold splitFirst at h
    split at h
    next hpre =>
      cases h
      obtain ⟨t, ht⟩ := List.isPrefixOf_iff_prefix.mp hpre
      rw [← ht, List.nil_append, List.drop_left]
    next hpre =>
      cases hs : splitFirst sep cs with
      | none => rw [hs] at h; exact Option.noConfusion h
      | some pr =>
        rw [hs, Option.map_some'] at h
        cases h
        rw [show (c :: pr.1) ++ sep ++ pr.2 = c :: (pr.1 ++ sep ++ pr.2) by simp]
        rw [← ih pr.1 pr.2 (by rw [hs])]

/-- The part before the first separator occurrence does not contain the
separator. -/
theorem splitFirst_no_sep (sep : List Char) (hne : sep ≠ []) :
    ∀ l a b, splitFirst sep l = some (a, b) → containsSub sep a = false := by
  intro l
  induction l with
  | nil =>
    intro a b h
    unfold splitFirst at h
    split at h
    next hse =>
      rw [List.isEmpty_iff] at hse
      exact absurd hse hne
    next => exact Option.noConfusion h
  | cons c cs ih =>
    intro a b h
    unfold splitFirst at h
    split at h
    next hpre =>
      cases h
      rw [show containsSub sep ([] : List Char) = sep.isEmpty from rfl]
      rw [List.isEmpty_eq_false]
      exact hne
    next hpre =>
      cases hs : splitFirst sep cs with
      | none => rw [hs] at h; exact Option.noConfusion h
      | some pr =>
        rw [hs, Option.map_some'] at h
        cases h
        rw [show containsSub sep (c :: pr.1)
            = (sep.isPrefixOf (c :: pr.1) || containsSub sep pr.1) from rfl]
        rw [ih pr.1 pr.2 (by rw [hs])]
        rw [Bool.or_false, Bool.eq_false_iff]
        intro hp
        have hdec : cs = pr.1 ++ sep ++ pr.2 := splitFirst_eq sep cs pr.1 pr.2 (by rw [hs])
        have hp2 : (c :: pr.1).isPrefixOf (c :: cs) = true := by
          rw [List.isPrefixOf_iff_prefix]
        -- wait: c :: pr.1 <+: c :: cs from cs = pr.1 ++ (sep ++ pr.2)
          refine ⟨sep ++ pr.2, ?_⟩
          rw [hdec]
          simp
        have : sep.isPrefixOf (c :: cs) = true := by
          rw [List.isPrefixOf_iff_prefix]
          exact (List.isPrefixOf_iff_prefix.mp hp).trans
            (List.isPrefixOf_iff_prefix.mp hp2)
        exact hpre this

/-- The separator `"://"` cannot start at the boundary straddling a prefix
that does not contain it. -/
theorem sep_not_prefix_mid (c : Char) (a' b : List Char)
    (h : containsSub "://".data (c :: a') = false) :
    ("://".data).isPrefixOf (c :: (a' ++ "://".data ++ b)) = false := by
  cases a' with
  | nil =>
    show ("://".data).isPrefixOf (c :: (':' :: '/' :: '/' :: b)) = false
    simp [List.isPrefixOf]
  | cons d a'' =>
    cases a'' with
    | nil =>
      show ("://".data).isPrefixOf (c :: d :: ':' :: '/' :: '/' :: b) = false
      simp [List.isPrefixOf]
    | cons e a3 =>
      have h1 : ("://".data).isPrefixOf (c :: d :: e :: a3) = false := by
        rw [containsSub, Bool.or_eq_false_iff] at h
        exact h.1
      show ("://".data).isPrefixOf (c :: d :: e :: (a3 ++ "://".data ++ b)) = false
      simp only [ show ("://".data : List Char) = [':', '/', '/'] from rfl,
        List.isPrefixOf] at h1 ⊢
      simpa using h1

/-- `splitFirst` finds the explicitly appended first separator when the
prefix is separator-free. -/
theorem splitFirst_sep_append :
    ∀ (a b : List Char), containsSub "://".data a = false →
      splitFirst "://".data (a ++ "://".data ++ b) = some (a, b) := by
  intro a
  induction a with
  | nil =>
    intro b _
    show splitFirst "://".data (([] : List Char) ++ "://".data ++ b) = some ([], b)
    simp only [List.nil_append]
    rw [show ("://".data ++ b : List Char) = ':' :: '/' :: '/' :: b from rfl]
    unfold splitFirst
    rw [if_pos (by simp [List.isPrefixOf])]
    simp

  | cons c a' ih =>
    intro b h
    have h0 := h
    rw [containsSub, Bool.or_eq_false_iff] at h
    show splitFirst "://".data (c :: (a' ++ "://".data ++ b)) = some (c :: a', b)
    unfold splitFirst
    split
    next hpre =>
      rw [sep_not_prefix_mid c a' b h0] at hpre
      exact absurd hpre (by simp)
    next hpre =>
      rw [ih b h.2]
      rfl

/-- `takeWhile`/`dropWhile` pass over a block whose elements all satisfy the
predicate. -/
theorem takeWhile_append_all (p : Char → Bool) :
    ∀ (N r : List Char), (∀ c ∈ N, p c = true) →
      (N ++ r).takeWhile p = N ++ r.takeWhile p ∧
      (N ++ r).dropWhile p = r.dropWhile p := by
  intro N
  induction N with
  | nil => intro r _; exact ⟨rfl, rfl⟩
  | cons c cs ih =>
    intro r h
    have hc : p c = true := h c (List.mem_cons_self c cs)
    have ihr := ih r (fun x hx => h x (List.mem_cons_of_mem c hx))
    refine ⟨?_, ?_⟩
    · rw [List.cons_append, List.takeWhile_cons, hc]
      simp [ihr.1]
    · rw [List.cons_append, List.dropWhile_cons, hc]
      simp [ihr.2]

/-- Re-parsing `scheme://netloc ++ path` recovers the components, provided
the scheme is separator-free, the netloc has no terminator characters, and
the path is empty or slash-initial with no query/fragment starters. -/
theorem parseUrl_reparse (S N P : List Char)
    (hS : containsSub "://".data S = false)
    (hN : ∀ c ∈ N, isNetlocEnd c = false)
    (hP : P = [] ∨ P.head? = some '/')
    (hPe : ∀ c ∈ P, isPathEnd c = false) :
    parseUrl (S ++ "://".data ++ N ++ P) = ⟨S, N, P, []⟩ := by
  unfold parseUrl
  rw [show S ++ "://".data ++ N ++ P = S ++ "://".data ++ (N ++ P) by simp]
  rw [splitFirst_sep_append S (N ++ P) hS]
  dsimp only
  have htw := takeWhile_append_all (fun c => !isNetlocEnd c) N P
    (fun c hc => by show (!isNetlocEnd c) = true; rw [hN c hc]; rfl)
  have hP1 : P.takeWhile (fun c => !isNetlocEnd c) = [] ∧
      P.dropWhile (fun c => !isNetlocEnd c) = P := by
    rcases hP with h | h
    · subst h; exact ⟨rfl, rfl⟩
    · cases P with
      | nil => exact ⟨rfl, rfl⟩
      | cons c t =>
        have hcc : c = '/' := by simpa using h
        subst hcc
        refine ⟨?_, ?_⟩
        · rw [List.takeWhile_cons]
          simp [isNetlocEnd]
        · rw [List.dropWhile_cons]
          simp [isNetlocEnd]
  have hP2 : P.takeWhile (fun c => !isPathEnd c) = P ∧
      P.dropWhile (fun c => !isPathEnd c) = [] := by
    refine ⟨?_, ?_⟩
    · rw [List.takeWhile_eq_self_iff]
      intro c hc
      rw [hPe c hc]
      rfl
    · rw [List.dropWhile_eq_nil_iff]
      intro c hc
      rw [hPe c hc]
      rfl
  rw [htw.1, htw.2, hP1.1, hP1.2, hP2.1, hP2.2, List.append_nil]

/-- On a path free of `_master` tokens and `img-master` segments, where an
`/img-original/` occurrence (if any) is already followed by `img/`, the
path normalization is the identity. -/
theorem normalizePixivPath_id (q : List Char)
    (h1 : containsSub "_master".data q = false)
    (h2 : containsSub "img-master".data q = false)
    (hio : containsSub "/img-original/".data q = true →
      containsSub "/img-original/img/".data q = true) :
    normalizePixivPath q = q := by
  have h2' : containsSub "/img-master/".data q = false := by
    cases hq : containsSub "/img-master/".data q with
    | false => rfl
    | true =>
      have hmono := containsSub_mono
        (show ("img-master".data : List Char) <:+: "/img-master/".data by decide) hq
      rw [h2] at hmono
      exact absurd hmono (by simp)
  unfold normalizePixivPath
  dsimp only
  rw [stripCropDir_id h2,
    replaceAll_id "/img-master/".data "/img-original/".data _ h2',
    subMasterDot_id h1, subPMaster_id h1]
  cases hioq : containsSub "/img-original/".data q with
  | false =>
    simp
  | true =>
    have hii := hio hioq
    rw [hii]
    simp

/-- C6 (amended).  (1) `make_pixiv_original_candidate` leaves any URL whose
host is outside the pixiv family unchanged.  (2) It is idempotent on every
URL whose first normalization yields a path with no `_master` token and no
`img-master` segment left (empty or slash-initial, without query/fragment
starter characters) — in particular on standard thumbnail URLs.  It is not
idempotent in general (`C6_counterexample`). -/
theorem C6_normalize :
    (∀ u : List Char, is_pixiv_host (parseUrl u).netloc = false →
      make_pixiv_original_candidate u = u) ∧
    (∀ u : List Char,
      containsSub "_master".data (normalizePixivPath (parseUrl u).path) = false →
      containsSub "img-master".data (normalizePixivPath (parseUrl u).path) = false →
      (normalizePixivPath (parseUrl u).path = [] ∨
        (normalizePixivPath (parseUrl u).path).head? = some '/') →
      (∀ c ∈ normalizePixivPath (parseUrl u).path, isPathEnd c = false) →
      make_pixiv_original_candidate (make_pixiv_original_candidate u) =
        make_pixiv_original_candidate u) := by
  have hnonpx : ∀ u : List Char, is_pixiv_host (parseUrl u).netloc = false →
      make_pixiv_original_candidate u = u := by
    intro u h
    unfold make_pixiv_original_candidate
    dsimp only
    rw [h]
    simp
  refine ⟨hnonpx, ?_⟩
  intro u h1 h2 h3 h4
  cases hpx : is_pixiv_host (parseUrl u).netloc with
  | false =>
    rw [hnonpx u hpx, hnonpx u hpx]
  | true =>
    cases hsp : splitFirst "://".data u with
    | none =>
      have hnl : (parseUrl u).netloc = [] := by
        unfold parseUrl
        rw [hsp]
      rw [hnl] at hpx
      exact absurd hpx (by decide)
    | some pr =>
      have hPu : parseUrl u =
          ⟨pr.1, pr.2.takeWhile (fun c => !isNetlocEnd c),
            ((pr.2.dropWhile (fun c => !isNetlocEnd c)).takeWhile
              (fun c => !isPathEnd c)),
            ((pr.2.dropWhile (fun c => !isNetlocEnd c)).dropWhile
              (fun c => !isPathEnd c))⟩ := by
        unfold parseUrl
        rw [hsp]
      have hS : containsSub "://".data (parseUrl u).scheme = false := by
        rw [hPu]
        exact splitFirst_no_sep _ (by decide) u pr.1 pr.2 (by rw [hsp])
      have hN : ∀ c ∈ (parseUrl u).netloc, isNetlocEnd c = false := by
        intro c hc
        rw [hPu] at hc
        have hmem := List.mem_takeWhile_imp hc
        simpa using hmem
      have hnorm : normalizePixivPath (normalizePixivPath (parseUrl u).path) =
          normalizePixivPath (parseUrl u).path :=
        normalizePixivPath_id _ h1 h2 (normalizePixivPath_io (parseUrl u).path)
      have hre : parseUrl ((parseUrl u).scheme ++ "://".data ++ (parseUrl u).netloc
            ++ normalizePixivPath (parseUrl u).path) =
          ⟨(parseUrl u).scheme, (parseUrl u).netloc,
            normalizePixivPath (parseUrl u).path, []⟩ :=
        parseUrl_reparse _ _ _ hS hN h3 h4
      have hm1 : make_pixiv_original_candidate u =
          (parseUrl u).scheme ++ "://".data ++ (parseUrl u).netloc
            ++ normalizePixivPath (parseUrl u).path := by
        unfold make_pixiv_original_candidate
        dsimp only
        rw [hpx]
        simp
      rw [hm1]
      unfold make_pixiv_original_candidate
      dsimp only
      rw [hre]
      dsimp only
      rw [hpx]
      simp only [Bool.not_true, Bool.false_eq_true, if_false]
      rw [hnorm]

/-- Witness for `C6_normalize`: a non-family URL is untouched, and the
standard pixiv thumbnail URL is a fixed point of the second application. -/
theorem C6_witness :
    make_pixiv_original_candidate "https://example.com/a.png".data =
      "https://example.com/a.png".data ∧
    make_pixiv_original_candidate (make_pixiv_original_candidate uPixivP0) =
      make_pixiv_original_candidate uPixivP0 :=
  ⟨C6_normalize.1 _ (by decide),
   C6_normalize.2 uPixivP0 (by decide) (by decide) (by decide) (by decide)⟩
